import Mathlib

/-!
Verification of the VNE (Virtual Network Embedding) simulator.

This file is a shallow embedding of the Python sources of the
`vne-simulator` repository into Lean 4, together with theorems settling a
list of claims about that code.

Conventions of the embedding:
* networkx graphs (substrate networks and VNRs alike) become the `VNE.Graph`
  structure: a list of node ids (in insertion order), a total attribute
  function for nodes, a list of edges (in insertion order) and a total
  attribute function for edges keyed by the canonical (sorted) endpoint pair
  (networkx stores one attribute dict per undirected edge, reachable from
  both orientations).
* Python resource numbers and times are modelled by `ℤ` (the generators
  only produce integers); NodeRank's float ranks are modelled by exact
  fractions over `ℤ` (`Frac` below), idealising float arithmetic as exact
  rational arithmetic.
* Missing dict keys read through `.get(k, 0)` are modelled by `Option.getD 0`;
  Python's `a or b` fallback on numbers (which treats `0` as falsy) is
  modelled by `pyOr`.
* Python dicts whose insertion order matters are modelled by association
  lists; Python's stable `list.sort` by `pySortAsc` / `pySortDesc`
  (insertion from the left, a later element is placed after all earlier
  elements with an equal key, exactly Python's stability guarantee).
* Loops over lists that are mutated while being iterated (the event list of
  `vne_simulation`, the chunk list of `yu2008_algorithm`) are modelled by an
  explicit index into the current list, exactly Python's list-iterator
  semantics.
-/

namespace VNE

/-- Node attribute dict of a networkx node: any of `cpu`, `cpu_available`,
`cpu_req` may be present. -/
structure NodeAttr where
  cpu : Option ℤ
  cpu_available : Option ℤ
  cpu_req : Option ℤ
deriving Repr, DecidableEq

/-- Edge attribute dict of a networkx edge. -/
structure EdgeAttr where
  bandwidth : Option ℤ
  bandwidth_available : Option ℤ
  bandwidth_req : Option ℤ
deriving Repr, DecidableEq

def NodeAttr.empty : NodeAttr := ⟨none, none, none⟩

def EdgeAttr.empty : EdgeAttr := ⟨none, none, none⟩

/-- Canonical key of an undirected edge: endpoints sorted.  Both orientations
of a networkx edge reach the same attribute dict. -/
def canonKey (e : ℕ × ℕ) : ℕ × ℕ := if e.1 ≤ e.2 then e else (e.2, e.1)

/-- A networkx graph as used by the simulator: substrate networks and VNRs
share this representation (both are `nx.Graph` with attribute dicts).
`vnrId`, `arrival_time`, `lifetime` model the `graph.graph` metadata dict of
VNRs (unused for substrates). -/
structure Graph where
  nodes : List ℕ
  nodeAttr : ℕ → NodeAttr
  edges : List (ℕ × ℕ)
  edgeAttr : ℕ × ℕ → EdgeAttr
  vnrId : ℕ
  arrival_time : ℤ
  lifetime : ℤ

/-- Pointwise function update (a dict entry assignment). -/
def fnUpd {α β : Type} [DecidableEq α] (f : α → β) (a : α) (b : β) : α → β :=
  fun x => if x = a then b else f x

def opt0 (o : Option ℤ) : ℤ := o.getD 0

/-- Python's `a or b` on numbers: `b` if `a` is zero (falsy), else `a`. -/
def pyOr (a b : ℤ) : ℤ := if a = 0 then b else a

/-- `substrate.nodes[n]['cpu_available']` read as a number (0 when absent). -/
def cpuAvailVal (g : Graph) (n : ℕ) : ℤ := opt0 (g.nodeAttr n).cpu_available

/-- `vnr.nodes[n]['cpu_req']` read as a number (0 when absent). -/
def cpuReqVal (g : Graph) (n : ℕ) : ℤ := opt0 (g.nodeAttr n).cpu_req

/-- `substrate.edges[e]['bandwidth_available']` read as a number. -/
def bwAvailVal (g : Graph) (e : ℕ × ℕ) : ℤ :=
  opt0 (g.edgeAttr (canonKey e)).bandwidth_available

/-- `vnr.edges[e]['bandwidth_req']` read as a number. -/
def bwReqVal (g : Graph) (e : ℕ × ℕ) : ℤ :=
  opt0 (g.edgeAttr (canonKey e)).bandwidth_req

/-- `substrate.nodes[n]['cpu_available'] = q`. -/
def setCpuAvail (g : Graph) (n : ℕ) (q : ℤ) : Graph :=
  let a := g.nodeAttr n
  { g with nodeAttr := fnUpd g.nodeAttr n ⟨a.cpu, some q, a.cpu_req⟩ }

/-- `substrate.edges[e]['bandwidth_available'] = q` (keyed canonically, as
networkx keeps one shared attribute dict per undirected edge). -/
def setBwAvail (g : Graph) (e : ℕ × ℕ) (q : ℤ) : Graph :=
  let a := g.edgeAttr (canonKey e)
  { g with edgeAttr := fnUpd g.edgeAttr (canonKey e) ⟨a.bandwidth, some q, a.bandwidth_req⟩ }

/-- Adjacency of node `n`: scan the edge list in insertion order (networkx
adjacency iteration order for simple graphs built by `add_edge`). -/
def neighbors (g : Graph) (n : ℕ) : List ℕ :=
  g.edges.filterMap fun e =>
    if e.1 = n then some e.2 else if e.2 = n then some e.1 else none

/-- Node mappings: association list virtual node ↦ substrate node, in
insertion order (a Python dict). -/
abbrev NodeMap := List (ℕ × ℕ)

/-- Link mappings: association list virtual edge ↦ substrate path. -/
abbrev LinkMap := List ((ℕ × ℕ) × List ℕ)

/-- One CPU allocation step of `allocate_resources`:
`substrate.nodes[s_node]['cpu_available'] -= vnr.nodes[v_node]['cpu_req']`. -/
def allocCpuStep (vnr : Graph) (g : Graph) (p : ℕ × ℕ) : Graph :=
  setCpuAvail g p.2 (cpuAvailVal g p.2 - cpuReqVal vnr p.1)

/-- One CPU deallocation step of `deallocate_resources`. -/
def deallocCpuStep (vnr : Graph) (g : Graph) (p : ℕ × ℕ) : Graph :=
  setCpuAvail g p.2 (cpuAvailVal g p.2 + cpuReqVal vnr p.1)

/-- Debit `bw` on every consecutive edge of a substrate path (a path of
length L touches L-1 edges, each debited the full requirement). -/
def allocPathBw (bw : ℤ) : Graph → List ℕ → Graph
  | g, a :: b :: rest =>
      allocPathBw bw (setBwAvail g (a, b) (bwAvailVal g (a, b) - bw)) (b :: rest)
  | g, _ => g

/-- Credit `bw` on every consecutive edge of a substrate path. -/
def deallocPathBw (bw : ℤ) : Graph → List ℕ → Graph
  | g, a :: b :: rest =>
      deallocPathBw bw (setBwAvail g (a, b) (bwAvailVal g (a, b) + bw)) (b :: rest)
  | g, _ => g

/-- `allocate_resources(substrate, node_mapping, link_mapping, vnr)` from
src/simulation/simulation.py: subtract each mapped virtual node's `cpu_req`
from its substrate node, then each mapped virtual edge's `bandwidth_req`
from every edge of its substrate path. -/
def allocate_resources (g : Graph) (nm : NodeMap) (lm : LinkMap) (vnr : Graph) :
    Graph :=
  let g1 := nm.foldl (allocCpuStep vnr) g
  lm.foldl (fun h p => allocPathBw (bwReqVal vnr p.1) h p.2) g1

/-- `deallocate_resources(substrate, node_mapping, link_mapping, vnr)`:
the additive inverse of `allocate_resources`. -/
def deallocate_resources (g : Graph) (nm : NodeMap) (lm : LinkMap) (vnr : Graph) :
    Graph :=
  let g1 := nm.foldl (deallocCpuStep vnr) g
  lm.foldl (fun h p => deallocPathBw (bwReqVal vnr p.1) h p.2) g1

/-- Total CPU debited at substrate node `n` by a node mapping. -/
def cpuDelta (vnr : Graph) (n : ℕ) : NodeMap → ℤ
  | [] => 0
  | p :: rest => (if p.2 = n then cpuReqVal vnr p.1 else 0) + cpuDelta vnr n rest

/-- Total bandwidth debited at the canonical edge `key` by one path. -/
def pathDelta (bw : ℤ) (key : ℕ × ℕ) : List ℕ → ℤ
  | a :: b :: rest =>
      (if canonKey (a, b) = key then bw else 0) + pathDelta bw key (b :: rest)
  | _ => 0

/-- Total bandwidth debited at the canonical edge `key` by a link mapping. -/
def lmDelta (vnr : Graph) (key : ℕ × ℕ) : LinkMap → ℤ
  | [] => 0
  | p :: rest => pathDelta (bwReqVal vnr p.1) key p.2 + lmDelta vnr key rest

theorem cpuAvailVal_setBwAvail (g : Graph) (e : ℕ × ℕ) (q : ℤ) (n : ℕ) :
    cpuAvailVal (setBwAvail g e q) n = cpuAvailVal g n := rfl

theorem bwAvailVal_setCpuAvail (g : Graph) (m : ℕ) (q : ℤ) (e : ℕ × ℕ) :
    bwAvailVal (setCpuAvail g m q) e = bwAvailVal g e := rfl

theorem cpuAvailVal_setCpuAvail (g : Graph) (m : ℕ) (q : ℤ) (n : ℕ) :
    cpuAvailVal (setCpuAvail g m q) n = if n = m then q else cpuAvailVal g n := by
  unfold cpuAvailVal setCpuAvail fnUpd
  by_cases h : n = m <;> simp [h, opt0]

theorem bwAvailVal_setBwAvail (g : Graph) (d : ℕ × ℕ) (q : ℤ) (e : ℕ × ℕ) :
    bwAvailVal (setBwAvail g d q) e =
      if canonKey e = canonKey d then q else bwAvailVal g e := by
  unfold bwAvailVal setBwAvail fnUpd
  by_cases h : canonKey e = canonKey d <;> simp [h, opt0]

theorem cpuAvailVal_allocPathBw (bw : ℤ) (g : Graph) (path : List ℕ) (n : ℕ) :
    cpuAvailVal (allocPathBw bw g path) n = cpuAvailVal g n := by
  induction path generalizing g with
  | nil => rfl
  | cons a rest ih =>
    cases rest with
    | nil => rfl
    | cons b rest2 =>
      rw [allocPathBw, ih, cpuAvailVal_setBwAvail]

theorem cpuAvailVal_deallocPathBw (bw : ℤ) (g : Graph) (path : List ℕ) (n : ℕ) :
    cpuAvailVal (deallocPathBw bw g path) n = cpuAvailVal g n := by
  induction path generalizing g with
  | nil => rfl
  | cons a rest ih =>
    cases rest with
    | nil => rfl
    | cons b rest2 =>
      rw [deallocPathBw, ih, cpuAvailVal_setBwAvail]

theorem cpuAvailVal_allocCpuFold (vnr : Graph) (nm : NodeMap) (g : Graph) (n : ℕ) :
    cpuAvailVal (nm.foldl (allocCpuStep vnr) g) n =
      cpuAvailVal g n - cpuDelta vnr n nm := by
  induction nm generalizing g with
  | nil => simp [cpuDelta]
  | cons p rest ih =>
    rw [List.foldl_cons, ih, cpuDelta]
    rw [show allocCpuStep vnr g p =
        setCpuAvail g p.2 (cpuAvailVal g p.2 - cpuReqVal vnr p.1) from rfl]
    rw [cpuAvailVal_setCpuAvail]
    by_cases h : n = p.2
    · subst h; simp; ring
    · have h2 : p.2 ≠ n := fun hc => h hc.symm
      simp [h, h2]

theorem cpuAvailVal_deallocCpuFold (vnr : Graph) (nm : NodeMap) (g : Graph) (n : ℕ) :
    cpuAvailVal (nm.foldl (deallocCpuStep vnr) g) n =
      cpuAvailVal g n + cpuDelta vnr n nm := by
  induction nm generalizing g with
  | nil => simp [cpuDelta]
  | cons p rest ih =>
    rw [List.foldl_cons, ih, cpuDelta]
    rw [show deallocCpuStep vnr g p =
        setCpuAvail g p.2 (cpuAvailVal g p.2 + cpuReqVal vnr p.1) from rfl]
    rw [cpuAvailVal_setCpuAvail]
    by_cases h : n = p.2
    · subst h; simp; ring
    · have h2 : p.2 ≠ n := fun hc => h hc.symm
      simp [h, h2]

theorem bwAvailVal_allocCpuFold (vnr : Graph) (nm : NodeMap) (g : Graph) (e : ℕ × ℕ) :
    bwAvailVal (nm.foldl (allocCpuStep vnr) g) e = bwAvailVal g e := by
  induction nm generalizing g with
  | nil => rfl
  | cons p rest ih => rw [List.foldl_cons, ih]; rfl

theorem bwAvailVal_deallocCpuFold (vnr : Graph) (nm : NodeMap) (g : Graph) (e : ℕ × ℕ) :
    bwAvailVal (nm.foldl (deallocCpuStep vnr) g) e = bwAvailVal g e := by
  induction nm generalizing g with
  | nil => rfl
  | cons p rest ih => rw [List.foldl_cons, ih]; rfl

theorem bwAvailVal_allocPathBw (bw : ℤ) (g : Graph) (path : List ℕ) (e : ℕ × ℕ) :
    bwAvailVal (allocPathBw bw g path) e =
      bwAvailVal g e - pathDelta bw (canonKey e) path := by
  induction path generalizing g with
  | nil => simp [allocPathBw, pathDelta]
  | cons a rest ih =>
    cases rest with
    | nil => simp [allocPathBw, pathDelta]
    | cons b rest2 =>
      rw [allocPathBw, ih, pathDelta, bwAvailVal_setBwAvail]
      by_cases h : canonKey (a, b) = canonKey e
      · have hv : bwAvailVal g (a, b) = bwAvailVal g e := by
          unfold bwAvailVal; rw [h]
        rw [if_pos h.symm, if_pos h, hv]; ring
      · rw [if_neg (fun hc => h hc.symm), if_neg h]; ring

theorem bwAvailVal_deallocPathBw (bw : ℤ) (g : Graph) (path : List ℕ) (e : ℕ × ℕ) :
    bwAvailVal (deallocPathBw bw g path) e =
      bwAvailVal g e + pathDelta bw (canonKey e) path := by
  induction path generalizing g with
  | nil => simp [deallocPathBw, pathDelta]
  | cons a rest ih =>
    cases rest with
    | nil => simp [deallocPathBw, pathDelta]
    | cons b rest2 =>
      rw [deallocPathBw, ih, pathDelta, bwAvailVal_setBwAvail]
      by_cases h : canonKey (a, b) = canonKey e
      · have hv : bwAvailVal g (a, b) = bwAvailVal g e := by
          unfold bwAvailVal; rw [h]
        rw [if_pos h.symm, if_pos h, hv]; ring
      · rw [if_neg (fun hc => h hc.symm), if_neg h]; ring

theorem bwAvailVal_allocLmFold (vnr : Graph) (lm : LinkMap) (g : Graph) (e : ℕ × ℕ) :
    bwAvailVal (lm.foldl (fun h p => allocPathBw (bwReqVal vnr p.1) h p.2) g) e =
      bwAvailVal g e - lmDelta vnr (canonKey e) lm := by
  induction lm generalizing g with
  | nil => simp [lmDelta]
  | cons p rest ih =>
    rw [List.foldl_cons, ih, lmDelta, bwAvailVal_allocPathBw]
    ring

theorem bwAvailVal_deallocLmFold (vnr : Graph) (lm : LinkMap) (g : Graph) (e : ℕ × ℕ) :
    bwAvailVal (lm.foldl (fun h p => deallocPathBw (bwReqVal vnr p.1) h p.2) g) e =
      bwAvailVal g e + lmDelta vnr (canonKey e) lm := by
  induction lm generalizing g with
  | nil => simp [lmDelta]
  | cons p rest ih =>
    rw [List.foldl_cons, ih, lmDelta, bwAvailVal_deallocPathBw]
    ring

theorem cpuAvailVal_allocLmFold (vnr : Graph) (lm : LinkMap) (g : Graph) (n : ℕ) :
    cpuAvailVal (lm.foldl (fun h p => allocPathBw (bwReqVal vnr p.1) h p.2) g) n =
      cpuAvailVal g n := by
  induction lm generalizing g with
  | nil => rfl
  | cons p rest ih => rw [List.foldl_cons, ih, cpuAvailVal_allocPathBw]

theorem cpuAvailVal_deallocLmFold (vnr : Graph) (lm : LinkMap) (g : Graph) (n : ℕ) :
    cpuAvailVal (lm.foldl (fun h p => deallocPathBw (bwReqVal vnr p.1) h p.2) g) n =
      cpuAvailVal g n := by
  induction lm generalizing g with
  | nil => rfl
  | cons p rest ih => rw [List.foldl_cons, ih, cpuAvailVal_deallocPathBw]

/-- C3: for every substrate, node mapping, link mapping and VNR, allocating
and then deallocating with the same arguments restores every node's
`cpu_available` and every edge's `bandwidth_available` to its prior value:
the two functions apply exactly opposite deltas (the full `bandwidth_req` on
each of the L-1 consecutive edges of each mapped path). -/
theorem allocate_deallocate_roundtrip (g : Graph) (nm : NodeMap) (lm : LinkMap)
    (vnr : Graph) (n : ℕ) (e : ℕ × ℕ) :
    cpuAvailVal (deallocate_resources (allocate_resources g nm lm vnr) nm lm vnr) n =
      cpuAvailVal g n ∧
    bwAvailVal (deallocate_resources (allocate_resources g nm lm vnr) nm lm vnr) e =
      bwAvailVal g e := by
  unfold allocate_resources deallocate_resources
  constructor
  · rw [cpuAvailVal_deallocLmFold, cpuAvailVal_deallocCpuFold,
      cpuAvailVal_allocLmFold, cpuAvailVal_allocCpuFold]
    ring
  · rw [bwAvailVal_deallocLmFold, bwAvailVal_deallocCpuFold,
      bwAvailVal_allocLmFold, bwAvailVal_allocCpuFold]
    ring

/-! ### Python's stable sort

`list.sort` / `sorted` in Python are stable.  A stable sort is modelled by
inserting the elements from the left, each new element going after every
already-placed element whose key is not strictly behind it. -/

def insStable {α : Type} (le : α → α → Bool) (a : α) : List α → List α
  | [] => [a]
  | b :: l => if le b a then b :: insStable le a l else a :: b :: l

def pyStableSort {α : Type} (le : α → α → Bool) (l : List α) : List α :=
  l.foldl (fun acc a => insStable le a acc) []

/-- Python `sorted(l, key=key)` (stable, ascending). -/
def pySortAsc {α β : Type} [LinearOrder β] (key : α → β) (l : List α) : List α :=
  pyStableSort (fun b a => decide (key b ≤ key a)) l

/-- Python `sorted(l, key=key, reverse=True)` (stable, descending). -/
def pySortDesc {α β : Type} [LinearOrder β] (key : α → β) (l : List α) : List α :=
  pyStableSort (fun b a => decide (key a ≤ key b)) l

/-! ### Exact fractions

NodeRank works on Python floats; the embedding idealises this as exact
rational arithmetic.  Mathlib's `ℚ` normalises through `Nat.gcd`, which the
kernel cannot evaluate, so the embedding uses an unnormalised fraction type
over `ℤ` whose operations and comparisons are plain integer arithmetic.
Every operation keeps the denominator positive, so the cross-multiplication
order is the true rational order. -/

structure Frac where
  num : ℤ
  den : ℤ
deriving Repr, DecidableEq

def Frac.ofInt (n : ℤ) : Frac := ⟨n, 1⟩

def Frac.add (a b : Frac) : Frac := ⟨a.num * b.den + b.num * a.den, a.den * b.den⟩

def Frac.sub (a b : Frac) : Frac := ⟨a.num * b.den - b.num * a.den, a.den * b.den⟩

def Frac.mul (a b : Frac) : Frac := ⟨a.num * b.num, a.den * b.den⟩

/-- Division of a fraction by an integer, keeping the denominator positive. -/
def Frac.divInt (a : Frac) (n : ℤ) : Frac :=
  if n < 0 then ⟨-a.num, a.den * (-n)⟩ else ⟨a.num, a.den * n⟩

def Frac.fabs (a : Frac) : Frac := ⟨(a.num.natAbs : ℤ), a.den⟩

/-- `a < b` as rationals (cross multiplication; denominators positive). -/
def Frac.Lt (a b : Frac) : Prop := a.num * b.den < b.num * a.den

/-- `a ≤ b` as rationals. -/
def Frac.Le (a b : Frac) : Prop := a.num * b.den ≤ b.num * a.den

/-- `a = b` as rationals. -/
def Frac.Eqv (a b : Frac) : Prop := a.num * b.den = b.num * a.den

instance (a b : Frac) : Decidable (Frac.Lt a b) := Int.decLt _ _

instance (a b : Frac) : Decidable (Frac.Le a b) := Int.decLe _ _

instance (a b : Frac) : Decidable (Frac.Eqv a b) := Int.decEq _ _

def Frac.sumList (l : List Frac) : Frac := l.foldl Frac.add (Frac.ofInt 0)

/-- Python `sorted(l, key=key, reverse=True)` for numeric (float) keys. -/
def pySortDescF {α : Type} (key : α → Frac) (l : List α) : List α :=
  pyStableSort (fun b a => decide (Frac.Le (key a) (key b))) l

/-! ### NodeRank (src/algorithms/noderank.py) -/

/-- The CPU quantity NodeRank reads:
`nodes[n].get('cpu_available', 0) or nodes[n].get('cpu_req', 0) or
nodes[n].get('cpu', 0)` — Python's `or` falls through on `0`. -/
def cpuVal (g : Graph) (n : ℕ) : ℤ :=
  pyOr (opt0 (g.nodeAttr n).cpu_available)
    (pyOr (opt0 (g.nodeAttr n).cpu_req) (opt0 (g.nodeAttr n).cpu))

/-- The bandwidth quantity NodeRank reads on an edge, same fallback chain. -/
def bwVal (g : Graph) (u v : ℕ) : ℤ :=
  let a := g.edgeAttr (canonKey (u, v))
  pyOr (opt0 a.bandwidth_available) (pyOr (opt0 a.bandwidth_req) (opt0 a.bandwidth))

/-- `H[u] = cpu(u) * Σ bandwidth of incident edges` (Equation 6); an
integer, as in the source where all resource values are ints. -/
def H (g : Graph) (n : ℕ) : ℤ :=
  cpuVal g n * ((neighbors g n).map (fun m => bwVal g n m)).sum

/-- `total_H = sum(H.values())`. -/
def totalH (g : Graph) : ℤ := (g.nodes.map (H g)).sum

/-- `sum(node_rank.values())`. -/
def sumRanks (g : Graph) (r : ℕ → Frac) : Frac := Frac.sumList (g.nodes.map r)

/-- `Σ H[w] for w in neighbors(u)`. -/
def nbrHSum (g : Graph) (u : ℕ) : ℤ := ((neighbors g u).map (H g)).sum

/-- One iteration of NodeRank's refinement loop: for every node `v`,
`new_rank[v] = global_influence + local_influence` exactly as in the loop
body of `compute_noderank`. -/
def nrStep (g : Graph) (pj pf : Frac) (r : ℕ → Frac) : ℕ → Frac :=
  fun v =>
    let jump := (((Frac.ofInt (H g v)).divInt (totalH g)).mul pj).mul (sumRanks g r)
    let loc := (neighbors g v).foldl
      (fun acc u =>
        if 0 < nbrHSum g u then
          acc.add ((((Frac.ofInt (H g v)).divInt (nbrHSum g u)).mul pf).mul (r u))
        else acc)
      (Frac.ofInt 0)
    jump.add loc

/-- `total_diff = sum(abs(new_rank[n] - node_rank[n]) for n in nodes)`. -/
def totalDiff (g : Graph) (nr r : ℕ → Frac) : Frac :=
  Frac.sumList (g.nodes.map (fun n => ((nr n).sub (r n)).fabs))

/-- The iteration loop of `compute_noderank`: compute `new_rank`; if
`total_diff < epsilon` break — returning the CURRENT `node_rank`, because
the break happens before `node_rank = new_rank` — else continue with
`new_rank`; when the iteration budget is exhausted return the last
`new_rank`. -/
def nrLoop (g : Graph) (eps pj pf : Frac) : ℕ → (ℕ → Frac) → (ℕ → Frac)
  | 0, r => r
  | fuel + 1, r =>
    let nr := nrStep g pj pf r
    if Frac.Lt (totalDiff g nr r) eps then r else nrLoop g eps pj pf fuel nr

/-- `compute_noderank(graph, max_iterations, epsilon, p_jump, p_forward)`:
`None` when the total resource weight is zero, else the iterated ranks
starting from `NR0(u) = H(u)/total_H`. -/
def compute_noderank (g : Graph) (max_iterations : ℕ) (eps pj pf : Frac) :
    Option (ℕ → Frac) :=
  if totalH g = 0 then none
  else some (nrLoop g eps pj pf max_iterations
    (fun n => (Frac.ofInt (H g n)).divInt (totalH g)))

/-- `compute_noderank` at its default parameters
(`max_iterations=100, epsilon=0.0001, p_jump=0.15, p_forward=0.85`). -/
def compute_noderankD (g : Graph) : Option (ℕ → Frac) :=
  compute_noderank g 100 ⟨1, 10000⟩ ⟨3, 20⟩ ⟨17, 20⟩

/-! ### Shortest paths (networkx helpers used by the algorithms)

`nx.shortest_path` on an unweighted graph returns a minimum-hop path; the
embedding uses a breadth-first search with the graph's adjacency order.
All concrete inputs used in theorems below have a unique shortest path
between the queried endpoints, so the returned path agrees with networkx
regardless of its internal tie-breaking. -/

def bfsRun (g : Graph) (t : ℕ) : ℕ → List (ℕ × List ℕ) → List ℕ → Option (List ℕ)
  | 0, _, _ => none
  | _ + 1, [], _ => none
  | fuel + 1, (u, path) :: rest, visited =>
    if u = t then some ((u :: path).reverse)
    else
      let nbrs := (neighbors g u).filter (fun v => ! visited.contains v)
      bfsRun g t fuel (rest ++ nbrs.map (fun v => (v, u :: path))) (visited ++ nbrs)

/-- `nx.shortest_path(g, s, t)` (hop count), `none` for `NetworkXNoPath`. -/
def shortestPath (g : Graph) (s t : ℕ) : Option (List ℕ) :=
  bfsRun g t (g.nodes.length + 2 * g.edges.length + 2) [(s, [])] [s]

/-- `nx.shortest_path_length(g, s, t)` in hops. -/
def shortestPathLen (g : Graph) (s t : ℕ) : Option ℕ :=
  (shortestPath g s t).map (fun p => p.length - 1)

/-- All simple paths from `u` to `t` (depth-first, adjacency order). -/
def simplePathsFrom (g : Graph) (t : ℕ) : ℕ → ℕ → List ℕ → List (List ℕ)
  | 0, _, _ => []
  | fuel + 1, u, path =>
    if u = t then [path.reverse]
    else
      ((neighbors g u).filter (fun v => ! path.contains v)).flatMap
        (fun v => simplePathsFrom g t fuel v (v :: path))

/-- `nx.shortest_simple_paths(g, s, t)` as a list in non-decreasing length
order (the generator is only ever consumed through `islice(_, k)` with
`k ≤ 3`).  Empty when no path exists (`NetworkXNoPath` on first `next`). -/
def shortest_simple_paths (g : Graph) (s t : ℕ) : List (List ℕ) :=
  pySortAsc (fun p => p.length) (simplePathsFrom g t (g.nodes.length + 1) s [s])

/-! ### Greedy (src/algorithms/greedy.py) -/

def lookupD (m : NodeMap) (k : ℕ) : ℕ := (m.lookup k).getD 0

/-- Phase 1 of `simple_greedy_algorithm`: map each virtual node to the first
substrate node (in the fixed CPU-descending order) that is not already used
by this VNR and has sufficient `cpu_available`. -/
def greedyNodesLoop (sub vnr : Graph) (order : List ℕ) :
    List ℕ → NodeMap → Option NodeMap
  | [], nm => some nm
  | v :: rest, nm =>
    match order.find? (fun s =>
        ! (nm.map Prod.snd).contains s &&
        decide (cpuReqVal vnr v ≤ cpuAvailVal sub s)) with
    | some s => greedyNodesLoop sub vnr order rest (nm ++ [(v, s)])
    | none => none

/-- `bandwidth_available ≥ bw_req` on every consecutive edge of a path. -/
def checkPathBw (sub : Graph) (bw : ℤ) : List ℕ → Bool
  | a :: b :: rest => decide (bw ≤ bwAvailVal sub (a, b)) && checkPathBw sub bw (b :: rest)
  | _ => true

/-- Phase 2 of `simple_greedy_algorithm`: one shortest path per virtual
edge, rejected unless every edge of the path has sufficient bandwidth. -/
def greedyLinksLoop (sub vnr : Graph) (nm : NodeMap) :
    List (ℕ × ℕ) → LinkMap → Option LinkMap
  | [], lm => some lm
  | e :: rest, lm =>
    match shortestPath sub (lookupD nm e.1) (lookupD nm e.2) with
    | none => none
    | some path =>
      if checkPathBw sub (bwReqVal vnr e) path then
        greedyLinksLoop sub vnr nm rest (lm ++ [(e, path)])
      else none

/-- `simple_greedy_algorithm(substrate, vnr)`.  The Python function never
mutates the substrate (it only reads attribute values); accordingly the
embedding takes the substrate and returns only the mapping triple. -/
def simple_greedy_algorithm (sub vnr : Graph) :
    Option NodeMap × Option LinkMap × Bool :=
  let order := pySortDesc (cpuAvailVal sub) sub.nodes
  match greedyNodesLoop sub vnr order vnr.nodes [] with
  | none => (none, none, false)
  | some nm =>
    match greedyLinksLoop sub vnr nm vnr.edges [] with
    | none => (none, none, false)
    | some lm => (some nm, some lm, true)

theorem greedyNodesLoop_nodup (sub vnr : Graph) (order : List ℕ) :
    ∀ (vs : List ℕ) (nm nm' : NodeMap),
      greedyNodesLoop sub vnr order vs nm = some nm' →
      (nm.map Prod.snd).Nodup → (nm'.map Prod.snd).Nodup := by
  intro vs
  induction vs with
  | nil =>
    intro nm nm' h hd
    rw [greedyNodesLoop] at h
    cases h
    exact hd
  | cons v rest ih =>
    intro nm nm' h hd
    rw [greedyNodesLoop] at h
    cases hf : order.find? (fun s =>
        ! (nm.map Prod.snd).contains s &&
        decide (cpuReqVal vnr v ≤ cpuAvailVal sub s)) with
    | none => rw [hf] at h; cases h
    | some s =>
      rw [hf] at h
      have hp := List.find?_some hf
      have hs : ¬ s ∈ nm.map Prod.snd := by
        have h1 := ((Bool.and_eq_true _ _).mp hp).1
        simpa using h1
      refine ih (nm ++ [(v, s)]) nm' h ?_
      rw [List.map_append]
      exact List.Nodup.append hd (List.nodup_singleton s)
        (fun a ha hb => by
          simp only [List.map_cons, List.map_nil, List.mem_singleton] at hb
          exact hs (hb ▸ ha))

/-! ### RankedMaxMatch (src/algorithms/rw_maxmatch.py) -/

/-- `rw_maxmatch_node_mapping`: substrate and VNR nodes both sorted by
NodeRank descending, VNR nodes greedily mapped to the first unused substrate
node with sufficient CPU.  The candidate scan is behaviourally the same loop
as greedy's phase 1 (the Python bodies are line-for-line identical), so the
embedding shares `greedyNodesLoop`, instantiated with the rank orders. -/
def rw_maxmatch_node_mapping (sub vnr : Graph) (srank vrank : ℕ → Frac) :
    Option NodeMap :=
  greedyNodesLoop sub vnr (pySortDescF srank sub.nodes)
    (pySortDescF vrank vnr.nodes) []

/-- The `for k in range(1, 4)` loop of `rw_maxmatch_link_mapping`: take the
first `k` simple paths; if fewer exist, stop; else feasibility-check the
`k`-th one. -/
def mmKLoop (sub : Graph) (bw : ℤ) (paths : List (List ℕ)) :
    List ℕ → Option (List ℕ)
  | [] => none
  | k :: ks =>
    if paths.length < k then none
    else
      match paths.get? (k - 1) with
      | none => none
      | some p => if checkPathBw sub bw p then some p else mmKLoop sub bw paths ks

/-- `rw_maxmatch_link_mapping`: k-shortest-path (k ≤ 3) allocation check per
virtual edge. -/
def rw_maxmatch_link_mapping (sub vnr : Graph) (nm : NodeMap) :
    List (ℕ × ℕ) → LinkMap → Option LinkMap
  | [], lm => some lm
  | e :: rest, lm =>
    match mmKLoop sub (bwReqVal vnr e)
        (shortest_simple_paths sub (lookupD nm e.1) (lookupD nm e.2))
        [1, 2, 3] with
    | some p => rw_maxmatch_link_mapping sub vnr nm rest (lm ++ [(e, p)])
    | none => none

/-- `rw_maxmatch_algorithm(substrate, vnr)`.  Note the failure shapes of the
source: node-mapping failure and undefined ranks return `(None, None, False)`,
but a link-mapping failure returns `(node_mapping, None, False)` — the
computed node mapping is passed through. -/
def rw_maxmatch_algorithm (sub vnr : Graph) :
    Option NodeMap × Option LinkMap × Bool :=
  match compute_noderankD sub, compute_noderankD vnr with
  | some sr, some vr =>
    match rw_maxmatch_node_mapping sub vnr sr vr with
    | none => (none, none, false)
    | some nm =>
      match rw_maxmatch_link_mapping sub vnr nm vnr.edges [] with
      | none => (some nm, none, false)
      | some lm => (some nm, some lm, true)
  | _, _ => (none, none, false)

/-! ### The discrete-event simulator (src/simulation/simulation.py)

`vne_simulation` iterates `for event in events` over a list that it appends
to and stably re-sorts during iteration; the Python list iterator is an
index into the current list, which `simStep` models explicitly. -/

inductive EvKind where
  | arrival (vnr : Graph)
  | departure (id : ℕ)

structure EventE where
  time : ℤ
  kind : EvKind

structure SimResult where
  vnrId : ℕ
  arrivalTime : ℤ
  success : Bool
  node_mapping : Option NodeMap
  link_mapping : Option LinkMap
  currently_active : ℕ

/-- An embedding strategy as consumed by the simulator. -/
abbrev Alg := Graph → Graph → Option NodeMap × Option LinkMap × Bool

structure SimState where
  events : List EventE
  idx : ℕ
  sub : Graph
  active : List (ℕ × (NodeMap × LinkMap × Graph))
  results : List SimResult

/-- The initialisation loop of `vne_simulation`: `cpu_available = cpu` on
every node, `bandwidth_available = bandwidth` on every edge of the working
copy. -/
def initAvail (sub : Graph) : Graph :=
  { sub with
    nodeAttr := fun n =>
      if sub.nodes.contains n then
        let a := sub.nodeAttr n
        ⟨a.cpu, some (opt0 a.cpu), a.cpu_req⟩
      else sub.nodeAttr n,
    edgeAttr := fun e =>
      if sub.edges.any (fun d => decide (canonKey d = e)) then
        let a := sub.edgeAttr e
        ⟨a.bandwidth, some (opt0 a.bandwidth), a.bandwidth_req⟩
      else sub.edgeAttr e }

def simInit (sub : Graph) (queue : List Graph) : SimState :=
  { events := pySortAsc (fun e => e.time)
      (queue.map fun v => ⟨v.arrival_time, EvKind.arrival v⟩),
    idx := 0,
    sub := initAvail sub,
    active := [],
    results := [] }

/-- Process the event the iterator currently points at (a no-op past the end
of the list).  Arrival: run the strategy, on success allocate, register the
embedding, append the departure event and stably re-sort; either way append
a result record carrying the returned mappings and the current active count.
Departure: if the id is still active, deallocate and deregister. -/
def simStep (alg : Alg) (s : SimState) : SimState :=
  match s.events.get? s.idx with
  | none => s
  | some ev =>
    match ev.kind with
    | EvKind.arrival vnr =>
      let r := alg s.sub vnr
      if r.2.2 then
        let nm := r.1.getD []
        let lm := r.2.1.getD []
        let sub2 := allocate_resources s.sub nm lm vnr
        let active2 := s.active ++ [(vnr.vnrId, (nm, lm, vnr))]
        let events2 := pySortAsc (fun e => e.time)
          (s.events ++ [⟨ev.time + vnr.lifetime, EvKind.departure vnr.vnrId⟩])
        { events := events2, idx := s.idx + 1, sub := sub2, active := active2,
          results := s.results ++
            [⟨vnr.vnrId, ev.time, true, r.1, r.2.1, active2.length⟩] }
      else
        { s with
          idx := s.idx + 1,
          results := s.results ++
            [⟨vnr.vnrId, ev.time, false, r.1, r.2.1, s.active.length⟩] }
    | EvKind.departure id =>
      match s.active.lookup id with
      | some info =>
        { s with
          idx := s.idx + 1,
          sub := deallocate_resources s.sub info.1 info.2.1 info.2.2,
          active := s.active.filter fun p => decide (p.1 ≠ id) }
      | none => { s with idx := s.idx + 1 }

def simRun (alg : Alg) : ℕ → SimState → SimState
  | 0, s => s
  | n + 1, s => simRun alg n (simStep alg s)

/-- `vne_simulation(substrate, vnr_queue, algorithm_func)`.  The event list
holds at most one arrival plus one departure per VNR, so `2·|queue|` steps
exhaust it; `simStep` is the identity beyond the end of the list.  The whole
final state is returned so that theorems can also inspect the working
substrate; the Python function returns the `results` component. -/
def vne_simulation (sub : Graph) (queue : List Graph) (alg : Alg) : SimState :=
  simRun alg (2 * queue.length) (simInit sub queue)

/-! ### RankedBFS (src/algorithms/rw_bfs.py) -/

/-- Python's `max(l, key=key)`: the first element attaining the maximum
(strictly greater replaces).  `0` for the empty list (Python raises). -/
def pyMax (key : ℕ → Frac) : List ℕ → ℕ
  | [] => 0
  | a :: rest => rest.foldl (fun m x => if Frac.Lt (key m) (key x) then x else m) a

/-- Association-list update with dict semantics: overwrite in place if the
key exists, else append. -/
def updAssoc {α β : Type} [DecidableEq α] (m : List (α × β)) (k : α) (v : β) :
    List (α × β) :=
  if m.any (fun p => decide (p.1 = k)) then
    m.map (fun p => if p.1 = k then (k, v) else p)
  else m ++ [(k, v)]

/-- `dict.update(new)`. -/
def updAssocList {α β : Type} [DecidableEq α] (m new : List (α × β)) :
    List (α × β) :=
  new.foldl (fun acc p => updAssoc acc p.1 p.2) m

/-- `del m[k]`. -/
def eraseKey {α β : Type} [DecidableEq α] (m : List (α × β)) (k : α) :
    List (α × β) :=
  m.filter (fun p => decide (p.1 ≠ k))

/-- The level loop of `construct_bfs_tree_order`: sort the level by VNR rank
descending, extend the order, then collect unvisited neighbours (in level
order, adjacency order) as the next level, recording parent pointers. -/
def bfsLevels (vnr : Graph) (rank : ℕ → Frac) :
    ℕ → List ℕ → List ℕ → List ℕ → List (ℕ × Option ℕ) →
    List ℕ × List (ℕ × Option ℕ)
  | 0, _, _, ord, par => (ord, par)
  | fuel + 1, current, visited, ord, par =>
    match current with
    | [] => (ord, par)
    | _ =>
      let cur := pySortDescF rank current
      let step := cur.foldl
        (fun (acc : List ℕ × List ℕ × List (ℕ × Option ℕ)) node =>
          (neighbors vnr node).foldl
            (fun acc2 nb =>
              if acc2.2.1.contains nb then acc2
              else (acc2.1 ++ [nb], acc2.2.1 ++ [nb], acc2.2.2 ++ [(nb, some node)]))
            acc)
        ([], visited, par)
      bfsLevels vnr rank fuel step.1 step.2.1 (ord ++ cur) step.2.2

/-- `construct_bfs_tree_order(vnr, vnr_noderank)`: BFS order rooted at the
highest-ranked node, each layer rank-descending, with parent pointers. -/
def construct_bfs_tree_order (vnr : Graph) (rank : ℕ → Frac) :
    List ℕ × List (ℕ × Option ℕ) :=
  let root := pyMax rank vnr.nodes
  bfsLevels vnr rank (vnr.nodes.length + 1) [root] [root] [] [(root, none)]

/-- `build_candidate_lists(substrate, vnr, substrate_noderank)`: per virtual
node, the substrate nodes with sufficient CPU and sufficient total incident
available bandwidth, sorted by substrate rank descending. -/
def build_candidate_lists (sub vnr : Graph) (srank : ℕ → Frac) :
    List (ℕ × List ℕ) :=
  vnr.nodes.map fun vn =>
    let creq := opt0 (vnr.nodeAttr vn).cpu_req
    let bwreq := ((neighbors vnr vn).map (fun nb => bwReqVal vnr (vn, nb))).sum
    let cands := sub.nodes.filter fun s =>
      decide (creq ≤ cpuAvailVal sub s) &&
      decide (bwreq ≤ ((neighbors sub s).map (fun nb => bwAvailVal sub (s, nb))).sum)
    (vn, pySortDescF srank cands)

/-- `check_hop_constraint`: hop distance from the candidate to the BFS
parent's substrate node is at most `k`; a missing parent (the root) always
passes; no path fails. -/
def check_hop_constraint (sub : Graph) (vn cand : ℕ) (nm : NodeMap)
    (parents : List (ℕ × Option ℕ)) (k : ℕ) : Bool :=
  match (parents.lookup vn).getD none with
  | none => true
  | some p =>
    match shortestPathLen sub cand (lookupD nm p) with
    | none => false
    | some d => decide (d ≤ k)

/-- The inner loop of `match_vnr_node` that maps every edge from `vn` to an
already-mapped VNR neighbour via a feasibility-checked shortest path. -/
def bfsLinksLoop (sub vnr : Graph) (vn cand : ℕ) (nm : NodeMap) :
    List ℕ → LinkMap → Option LinkMap
  | [], acc => some acc
  | nb :: rest, acc =>
    match nm.lookup nb with
    | none => bfsLinksLoop sub vnr vn cand nm rest acc
    | some nbSub =>
      match shortestPath sub cand nbSub with
      | none => none
      | some path =>
        if checkPathBw sub (bwReqVal vnr (vn, nb)) path then
          bfsLinksLoop sub vnr vn cand nm rest (acc ++ [((vn, nb), path)])
        else none

/-- The candidate scan of `match_vnr_node` at a fixed hop bound `k`. -/
def btTryCands (sub vnr : Graph) (vn : ℕ) (creq : ℤ) (nm : NodeMap)
    (parents : List (ℕ × Option ℕ)) (k : ℕ) : List ℕ → Option (ℕ × LinkMap)
  | [] => none
  | c :: rest =>
    if (nm.map Prod.snd).contains c then
      btTryCands sub vnr vn creq nm parents k rest
    else if decide (cpuAvailVal sub c < creq) then
      btTryCands sub vnr vn creq nm parents k rest
    else if check_hop_constraint sub vn c nm parents k then
      match bfsLinksLoop sub vnr vn c nm (neighbors vnr vn) [] with
      | some lms => some (c, lms)
      | none => btTryCands sub vnr vn creq nm parents k rest
    else btTryCands sub vnr vn creq nm parents k rest

def btKLoop (sub vnr : Graph) (vn : ℕ) (creq : ℤ) (nm : NodeMap)
    (parents : List (ℕ × Option ℕ)) (cands : List ℕ) :
    List ℕ → Option (ℕ × LinkMap)
  | [] => none
  | k :: ks =>
    match btTryCands sub vnr vn creq nm parents k cands with
    | some r => some r
    | none => btKLoop sub vnr vn creq nm parents cands ks

/-- `match_vnr_node`: the root (empty mapping) takes the first candidate
with sufficient CPU; other nodes scan hop bounds `k = 1..max_hop` and, per
candidate, require unusedness, CPU, the hop constraint and feasible paths to
every mapped neighbour. -/
def match_vnr_node (sub vnr : Graph) (vn : ℕ) (cands : List ℕ) (nm : NodeMap)
    (parents : List (ℕ × Option ℕ)) (max_hop : ℕ) : Option (ℕ × LinkMap) :=
  let creq := opt0 (vnr.nodeAttr vn).cpu_req
  if nm.isEmpty then
    match cands.find? (fun s => decide (creq ≤ cpuAvailVal sub s)) with
    | some s => some (s, [])
    | none => none
  else
    btKLoop sub vnr vn creq nm parents cands (List.range' 1 max_hop)

/-- The `while` loop of `bfs_embedding_with_backtracking`.  Every iteration
either advances `index`, or backtracks (bounded by `max_backtrack`), or
returns; `order.length + 2·max_backtrack + 2` fuel therefore always
suffices, and fuel exhaustion (unreachable) reports failure. -/
def btLoop (sub vnr : Graph) (order : List ℕ) (parents : List (ℕ × Option ℕ))
    (clists : List (ℕ × List ℕ)) (max_hop max_backtrack : ℕ) :
    ℕ → ℕ → NodeMap → LinkMap → ℕ → List (ℕ × List ℕ) →
    Option (NodeMap × LinkMap)
  | 0, _, _, _, _, _ => none
  | fuel + 1, index, nm, lm, btc, tried =>
    if hidx : index < order.length then
      let vn := order.get ⟨index, hidx⟩
      let avail := ((clists.lookup vn).getD []).filter
        (fun c => ! ((tried.lookup vn).getD []).contains c)
      match match_vnr_node sub vnr vn avail nm parents max_hop with
      | some r =>
        btLoop sub vnr order parents clists max_hop max_backtrack fuel
          (index + 1) (nm ++ [(vn, r.1)]) (updAssocList lm r.2) btc tried
      | none =>
        if btc < max_backtrack ∧ 0 < index then
          let tried2 := tried.map fun p =>
            if (order.drop index).contains p.1 then (p.1, ([] : List ℕ)) else p
          let pi := index - 1
          let prev := order.getD pi 0
          match nm.lookup prev with
          | some sp =>
            let cur := (tried2.lookup prev).getD []
            btLoop sub vnr order parents clists max_hop max_backtrack fuel
              pi (eraseKey nm prev)
              (lm.filter fun p => decide (p.1.1 ≠ prev) && decide (p.1.2 ≠ prev))
              (btc + 1)
              (updAssoc tried2 prev (if cur.contains sp then cur else cur ++ [sp]))
          | none =>
            btLoop sub vnr order parents clists max_hop max_backtrack fuel
              pi nm lm (btc + 1) tried2
        else none
    else some (nm, lm)

/-- `bfs_embedding_with_backtracking(substrate, vnr, bfs_order, bfs_parents,
candidate_lists, substrate_noderank, max_hop, max_backtrack)`. -/
def bfs_embedding_with_backtracking (sub vnr : Graph) (order : List ℕ)
    (parents : List (ℕ × Option ℕ)) (clists : List (ℕ × List ℕ))
    (max_hop max_backtrack : ℕ) : Option (NodeMap × LinkMap) :=
  btLoop sub vnr order parents clists max_hop max_backtrack
    (order.length + 2 * max_backtrack + 2) 0 [] [] 0
    (order.map fun n => (n, []))

/-- `rw_bfs_algorithm(substrate, vnr, max_hop, max_backtrack)`.  Undefined
NodeRank on either graph, and search failure, both return
`(None, None, False)`. -/
def rw_bfs_algorithm (sub vnr : Graph) (max_hop max_backtrack : ℕ) :
    Option NodeMap × Option LinkMap × Bool :=
  match compute_noderankD sub, compute_noderankD vnr with
  | some sr, some vr =>
    let bp := construct_bfs_tree_order vnr vr
    let clists := build_candidate_lists sub vnr sr
    match bfs_embedding_with_backtracking sub vnr bp.1 bp.2 clists
        max_hop max_backtrack with
    | some r => (some r.1, some r.2, true)
    | none => (none, none, false)
  | _, _ => (none, none, false)

/-- `rw_bfs_algorithm` at its default parameters (`max_hop=3,
max_backtrack=3`). -/
def rw_bfs_algorithmD (sub vnr : Graph) : Option NodeMap × Option LinkMap × Bool :=
  rw_bfs_algorithm sub vnr 3 3

/-! ### ChunkedBaseline (src/algorithms/yu_baseline.py)

The `retried` flag lives on the shared VNR object (`vnr.graph['retried']`);
requeued list entries alias the same object.  The embedding therefore keeps
the flags in the algorithm state, keyed by `vnr_id`.  `create_chunks` sets
every queued VNR's flag to `False`; `yu2008_run` below models that by
starting from the all-`false` flag function. -/

/-- `calculate_revenue(vnr) = 2·Σ cpu_req + Σ bandwidth_req`. -/
def calculate_revenue (vnr : Graph) : ℤ :=
  2 * (vnr.nodes.map (cpuReqVal vnr)).sum + (vnr.edges.map (bwReqVal vnr)).sum

def createChunksAux (tw : ℤ) :
    List Graph → List (List Graph) → List Graph → ℤ → List (List Graph)
  | [], chunks, chunk, _ => if chunk.isEmpty then chunks else chunks ++ [chunk]
  | v :: rest, chunks, chunk, start =>
    if v.arrival_time ≤ start + tw then
      createChunksAux tw rest chunks (chunk ++ [v]) start
    else
      createChunksAux tw rest (chunks ++ [chunk]) [v] (start + tw)

/-- `create_chunks(vnr_queue, time_window)`: scan the arrival-sorted queue,
append to the current chunk while `arrival_time ≤ start_time + time_window`,
else close the chunk, start a new one with this VNR and advance `start_time`
by one window. -/
def create_chunks (queue : List Graph) (tw : ℤ) : List (List Graph) :=
  createChunksAux tw (pySortAsc (fun v => v.arrival_time) queue) [] [] 0

/-- `get_node_rank(node)` inside `yu2008_algorithm`:
total incident available bandwidth × available CPU. -/
def get_node_rank (sub : Graph) (n : ℕ) : ℤ :=
  ((neighbors sub n).map (fun nb => bwAvailVal sub (n, nb))).sum *
    cpuAvailVal sub n

/-- Python's `min(list)`; 0 for the empty list (Python raises). -/
def pyMinQ : List ℤ → ℤ
  | [] => 0
  | a :: rest => rest.foldl min a

structure YuState where
  sub : Graph
  chunks : List (List Graph)
  flags : ℕ → Bool
  nodeMap : List ((ℕ × ℕ) × ℕ)
  linkMap : List ((ℕ × (ℕ × ℕ)) × List ℕ)
  active : List (ℕ × ℤ × Graph)
  embedded : List ℕ
  histNode : List ((ℕ × ℕ) × ℕ)
  histLink : List ((ℕ × (ℕ × ℕ)) × List ℕ)
  embedTime : List (ℕ × ℤ)

/-- Deallocate one active VNR at departure: credit every node's CPU and
every mapped edge's bandwidth along its stored path, popping the global
mapping entries. -/
def yuDeallocVnr (st : YuState) (id : ℕ) (vnr : Graph) : YuState :=
  let st1 := vnr.nodes.foldl
    (fun (acc : YuState) v =>
      let s := (acc.nodeMap.lookup (id, v)).getD 0
      { acc with
        sub := setCpuAvail acc.sub s (cpuAvailVal acc.sub s + cpuReqVal vnr v),
        nodeMap := eraseKey acc.nodeMap (id, v) })
    st
  vnr.edges.foldl
    (fun (acc : YuState) e =>
      match acc.linkMap.lookup (id, e) with
      | some path =>
        { acc with
          sub := deallocPathBw (bwReqVal vnr e) acc.sub path,
          linkMap := eraseKey acc.linkMap (id, e) }
      | none => acc)
    st1

/-- The departure pass at a chunk boundary: every active embedding whose
departure time is at most `current` is deallocated and deregistered
(iterating a snapshot of the active table, as the Python does). -/
def processDepartures (current : ℤ) (st : YuState) : YuState :=
  st.active.foldl
    (fun acc entry =>
      if entry.2.1 ≤ current then
        let acc2 := yuDeallocVnr acc entry.1 entry.2.2
        { acc2 with active := acc2.active.filter fun p => decide (p.1 ≠ entry.1) }
      else acc)
    st

/-- The virtual-node loop of the node-mapping pass for one VNR: allocate
CPU as nodes are mapped; on an unmappable node, credit back all of this
VNR's partial CPU allocations and pop its entries. -/
def yuPhase1Inner (vnr : Graph) (id : ℕ) (order : List ℕ) :
    List ℕ → Graph → NodeMap → List ((ℕ × ℕ) × ℕ) →
    Graph × NodeMap × List ((ℕ × ℕ) × ℕ) × Bool
  | [], sub, vnrNm, nmap => (sub, vnrNm, nmap, true)
  | v :: rest, sub, vnrNm, nmap =>
    match order.find? (fun s =>
        ! (vnrNm.map Prod.snd).contains s &&
        decide (cpuReqVal vnr v ≤ cpuAvailVal sub s)) with
    | some s =>
      yuPhase1Inner vnr id order rest
        (setCpuAvail sub s (cpuAvailVal sub s - cpuReqVal vnr v))
        (vnrNm ++ [(v, s)]) (updAssoc nmap (id, v) s)
    | none =>
      let subR := vnrNm.foldl
        (fun g p => setCpuAvail g p.2 (cpuAvailVal g p.2 + cpuReqVal vnr p.1)) sub
      let nmapR := vnrNm.foldl (fun m p => eraseKey m (id, p.1)) nmap
      (subR, vnrNm, nmapR, false)

/-- The `if not vnr.graph['retried']: failed_vnrs.append(vnr);
vnr.graph['retried'] = True` step shared by every failure site. -/
def yuFlagRequeue (st : YuState) (vnr : Graph) (failed : List Graph) :
    YuState × List Graph :=
  if st.flags vnr.vnrId then (st, failed)
  else ({ st with flags := fnUpd st.flags vnr.vnrId true }, failed ++ [vnr])

/-- The node-mapping pass for one VNR: filter substrate nodes able to host
the smallest single-node requirement, rank them by
`get_node_rank` (descending, computed against the pre-VNR substrate), then
run the virtual-node loop.  A failed not-yet-retried VNR is flagged and
collected for requeueing. -/
def yuPhase1Vnr (st : YuState) (vnr : Graph) (failed : List Graph) :
    YuState × List Graph × Bool :=
  let minReq := pyMinQ (vnr.nodes.map (cpuReqVal vnr))
  let S := st.sub.nodes.filter fun n => decide (minReq ≤ cpuAvailVal st.sub n)
  if S.isEmpty then
    let r2 := yuFlagRequeue st vnr failed
    (r2.1, r2.2, false)
  else
    let order := pySortDesc (get_node_rank st.sub) S
    let r := yuPhase1Inner vnr vnr.vnrId order vnr.nodes st.sub [] st.nodeMap
    if r.2.2.2 then
      ({ st with sub := r.1, nodeMap := r.2.2.1 }, failed, true)
    else
      let r2 := yuFlagRequeue { st with sub := r.1, nodeMap := r.2.2.1 } vnr failed
      (r2.1, r2.2, false)

/-- The node-mapping pass over a (revenue-sorted) chunk, collecting the
failed list and the successfully node-mapped VNRs in order. -/
def yuPhase1Chunk (st : YuState) (chunk : List Graph) :
    YuState × List Graph × List Graph :=
  chunk.foldl
    (fun acc vnr =>
      let r := yuPhase1Vnr acc.1 vnr acc.2.1
      (r.1, r.2.1, if r.2.2 then acc.2.2 ++ [vnr] else acc.2.2))
    (st, [], [])

/-- The `for k in range(1, 4)` path search of the link-mapping pass.  The
source re-enumerates `islice(shortest_simple_paths(..), k)` for k = 1, 2, 3
and allocates the first feasible path encountered; since the substrate is
unchanged while a single virtual edge is being routed, this equals taking
the first feasible path among the first three simple paths. -/
def yuFindPath (sub : Graph) (bw : ℤ) (paths : List (List ℕ)) :
    Option (List ℕ) :=
  (paths.take 3).find? (checkPathBw sub bw)

/-- The virtual-edge loop of the link-mapping pass for one VNR: allocate
bandwidth as soon as a feasible path is found; stop at the first unroutable
edge. -/
def yuPhase2Edges (vnr : Graph) (id : ℕ) (nmap : List ((ℕ × ℕ) × ℕ)) :
    List (ℕ × ℕ) → Graph → List ((ℕ × (ℕ × ℕ)) × List ℕ) →
    Graph × List ((ℕ × (ℕ × ℕ)) × List ℕ) × Bool
  | [], sub, lmap => (sub, lmap, true)
  | e :: rest, sub, lmap =>
    let srcS := (nmap.lookup (id, e.1)).getD 0
    let dstS := (nmap.lookup (id, e.2)).getD 0
    match yuFindPath sub (bwReqVal vnr e) (shortest_simple_paths sub srcS dstS) with
    | some path =>
      yuPhase2Edges vnr id nmap rest (allocPathBw (bwReqVal vnr e) sub path)
        (updAssoc lmap (id, e) path)
    | none => (sub, lmap, false)

/-- The link-mapping pass for one (node-mapped) VNR.  On success: register
the active embedding with departure `current + lifetime`, record the
embedding time and copy this VNR's mapping entries into the permanent
historical record.  On failure: credit back all of this VNR's CPU and all
bandwidth allocated for it so far, pop its mapping entries, and flag/requeue
it unless it was already retried. -/
def yuPhase2Vnr (current : ℤ) (st : YuState) (vnr : Graph)
    (failed : List Graph) : YuState × List Graph × Bool :=
  let id := vnr.vnrId
  let r := yuPhase2Edges vnr id st.nodeMap vnr.edges st.sub st.linkMap
  if r.2.2 then
    let stOk := { st with
      sub := r.1,
      linkMap := r.2.1,
      active := st.active ++ [(id, current + vnr.lifetime, vnr)],
      embedded := if st.embedded.contains id then st.embedded else st.embedded ++ [id],
      embedTime := updAssoc st.embedTime id current,
      histNode := updAssocList st.histNode
        (st.nodeMap.filter fun p => decide (p.1.1 = id)),
      histLink := updAssocList st.histLink
        (r.2.1.filter fun p => decide (p.1.1 = id)) }
    (stOk, failed, true)
  else
    let sub1 := vnr.nodes.foldl
      (fun g v =>
        let s := (st.nodeMap.lookup (id, v)).getD 0
        setCpuAvail g s (cpuAvailVal g s + cpuReqVal vnr v))
      r.1
    let nmap1 := vnr.nodes.foldl (fun m v => eraseKey m (id, v)) st.nodeMap
    let rb := vnr.edges.foldl
      (fun (acc : Graph × List ((ℕ × (ℕ × ℕ)) × List ℕ)) e =>
        match acc.2.lookup (id, e) with
        | some path =>
          (deallocPathBw (bwReqVal vnr e) acc.1 path, eraseKey acc.2 (id, e))
        | none => acc)
      (sub1, r.2.1)
    let r2 := yuFlagRequeue { st with sub := rb.1, nodeMap := nmap1, linkMap := rb.2 }
      vnr failed
    (r2.1, r2.2, false)

def yuPhase2Chunk (current : ℤ) (st : YuState) (vnrs : List Graph)
    (failed : List Graph) : YuState × List Graph :=
  vnrs.foldl
    (fun acc vnr =>
      let r := yuPhase2Vnr current acc.1 vnr acc.2
      (r.1, r.2.1))
    (st, failed)

/-- One iteration of the chunk loop: departures at the boundary
`(i+1)·time_window`, in-place revenue sort of the chunk, the two passes,
then requeueing of the failed list into the next chunk (or a new trailing
chunk when this was the last one). -/
def processChunk (tw : ℤ) (st : YuState) (i : ℕ) : YuState :=
  let current := (i + 1 : ℤ) * tw
  let chunk := (st.chunks.get? i).getD []
  let st1 := processDepartures current st
  let sorted := pySortDesc calculate_revenue chunk
  let st2 := { st1 with chunks := st1.chunks.set i sorted }
  let p1 := yuPhase1Chunk st2 sorted
  let p2 := yuPhase2Chunk current p1.1 (pySortDesc calculate_revenue p1.2.2) p1.2.1
  let st4 := p2.1
  let failed := p2.2
  if failed.isEmpty then st4
  else if i < st4.chunks.length - 1 then
    { st4 with chunks :=
        st4.chunks.set (i + 1) (((st4.chunks.get? (i + 1)).getD []) ++ failed) }
  else { st4 with chunks := st4.chunks ++ [failed] }

/-- `for i, chunk in enumerate(vnr_chunks)` over the growing chunk list:
an index into the current list. -/
def yuLoop (tw : ℤ) : ℕ → ℕ → YuState → YuState
  | 0, _, st => st
  | f + 1, i, st =>
    if i < st.chunks.length then yuLoop tw f (i + 1) (processChunk tw st i)
    else st

structure YuResult where
  vnrId : ℕ
  arrivalTime : ℤ
  embeddingTime : Option ℤ
  success : Bool
  node_mapping : Option NodeMap
  link_mapping : Option LinkMap

/-- `yu2008_algorithm(substrate, vnr_chunks, time_window)`: run the chunk
loop (the trailing chunk appended for last-chunk failures contains only
already-retried VNRs, whose second failure enqueues nothing, so the list
grows by at most one chunk and `|chunks| + 2` iterations always exhaust it)
and build one result per distinct `vnr_id` of the input chunks from the
historical record.  `flags0` is the incoming `retried` state of the VNR
objects. -/
def yu2008_algorithm (sub : Graph) (chunks : List (List Graph))
    (flags0 : ℕ → Bool) (tw : ℤ) : YuState × List YuResult :=
  let st0 : YuState := ⟨sub, chunks, flags0, [], [], [], [], [], [], []⟩
  let fin := yuLoop tw (chunks.length + 2) 0 st0
  let allIds := (chunks.flatMap fun c => c.map fun v => v.vnrId).foldl
    (fun acc id => if acc.contains id then acc else acc ++ [id]) []
  let arrOf := fun id =>
    (((chunks.flatMap fun c => c.map fun v => (v.vnrId, v.arrival_time)).lookup id).getD 0)
  let results := allIds.map fun id =>
    if fin.embedded.contains id then
      { vnrId := id, arrivalTime := arrOf id,
        embeddingTime := some ((fin.embedTime.lookup id).getD (arrOf id)),
        success := true,
        node_mapping := some ((fin.histNode.filter fun p => decide (p.1.1 = id)).map
          fun p => (p.1.2, p.2)),
        link_mapping := some ((fin.histLink.filter fun p => decide (p.1.1 = id)).map
          fun p => (p.1.2, p.2)) }
    else
      { vnrId := id, arrivalTime := arrOf id, embeddingTime := none,
        success := false, node_mapping := none, link_mapping := none }
  (fin, results)

/-- The chunked pipeline as driven by the experiments: `create_chunks`
(which resets every queued VNR's `retried` flag to `False`) followed by
`yu2008_algorithm`. -/
def yu2008_run (sub : Graph) (queue : List Graph) (tw : ℤ) :
    YuState × List YuResult :=
  yu2008_algorithm sub (create_chunks queue tw) (fun _ => false) tw

/-! ### Concrete instances used by the claims

All resource values below lie inside the external generator's ranges
(substrate cpu/bandwidth 50–100 or the fixed topologies' 80–150, VNR
cpu_req 8–50, bandwidth_req 4–30, star/path/triangle virtual topologies). -/

/-- A 3-node path substrate (cpu 100 per node, bandwidth 50 per edge). -/
def subC1 : Graph :=
  { nodes := [1, 2, 3],
    nodeAttr := fun n => if 1 ≤ n ∧ n ≤ 3 then ⟨some 100, none, none⟩ else NodeAttr.empty,
    edges := [(1, 2), (2, 3)],
    edgeAttr := fun e => if e = (1, 2) ∨ e = (2, 3) then ⟨some 50, none, none⟩ else EdgeAttr.empty,
    vnrId := 0, arrival_time := 0, lifetime := 0 }

/-- A 3-node star VNR whose two virtual links (26 each) must share the
substrate edge 1–2 once node 1 hosts the star centre. -/
def vnrC1 : Graph :=
  { nodes := [1, 2, 3],
    nodeAttr := fun n => if 1 ≤ n ∧ n ≤ 3 then ⟨none, none, some 10⟩ else NodeAttr.empty,
    edges := [(1, 2), (1, 3)],
    edgeAttr := fun e => if e = (1, 2) ∨ e = (1, 3) then ⟨none, none, some 26⟩ else EdgeAttr.empty,
    vnrId := 1, arrival_time := 0, lifetime := 5 }

/-- A 2-node substrate (cpu 50 each, bandwidth 50). -/
def subC5 : Graph :=
  { nodes := [1, 2],
    nodeAttr := fun n => if 1 ≤ n ∧ n ≤ 2 then ⟨some 50, none, none⟩ else NodeAttr.empty,
    edges := [(1, 2)],
    edgeAttr := fun e => if e = (1, 2) then ⟨some 50, none, none⟩ else EdgeAttr.empty,
    vnrId := 0, arrival_time := 0, lifetime := 0 }

/-- Arrives at 0, departs at 10, occupies 30 cpu on each substrate node. -/
def vnrA5 : Graph :=
  { nodes := [1, 2],
    nodeAttr := fun n => if 1 ≤ n ∧ n ≤ 2 then ⟨none, none, some 30⟩ else NodeAttr.empty,
    edges := [(1, 2)],
    edgeAttr := fun e => if e = (1, 2) then ⟨none, none, some 10⟩ else EdgeAttr.empty,
    vnrId := 1, arrival_time := 0, lifetime := 10 }

/-- Arrives at 10 — exactly when `vnrA5` departs — and needs 25 cpu per
node: feasible on the empty substrate, infeasible while `vnrA5` holds it. -/
def vnrB5 : Graph :=
  { nodes := [1, 2],
    nodeAttr := fun n => if 1 ≤ n ∧ n ≤ 2 then ⟨none, none, some 25⟩ else NodeAttr.empty,
    edges := [(1, 2)],
    edgeAttr := fun e => if e = (1, 2) then ⟨none, none, some 10⟩ else EdgeAttr.empty,
    vnrId := 2, arrival_time := 10, lifetime := 5 }

/-- A 2-node substrate mid-simulation: plenty of CPU but only 5 bandwidth
left on its single edge. -/
def subC2 : Graph :=
  { nodes := [1, 2],
    nodeAttr := fun n => if 1 ≤ n ∧ n ≤ 2 then ⟨some 60, some 40, none⟩ else NodeAttr.empty,
    edges := [(1, 2)],
    edgeAttr := fun e => if e = (1, 2) then ⟨some 50, some 5, none⟩ else EdgeAttr.empty,
    vnrId := 0, arrival_time := 0, lifetime := 0 }

/-- A 2-node VNR whose single link (7) exceeds the remaining bandwidth, so
node mapping succeeds and link mapping fails. -/
def vnrC2 : Graph :=
  { nodes := [1, 2],
    nodeAttr := fun n => if 1 ≤ n ∧ n ≤ 2 then ⟨none, none, some 10⟩ else NodeAttr.empty,
    edges := [(1, 2)],
    edgeAttr := fun e => if e = (1, 2) then ⟨none, none, some 7⟩ else EdgeAttr.empty,
    vnrId := 3, arrival_time := 0, lifetime := 5 }

/-- An asymmetric 2-node graph (H = 100 and 200): its NodeRank iteration
moves away from the initial ranks, isolating which ranks are returned. -/
def g6 : Graph :=
  { nodes := [0, 1],
    nodeAttr := fun n => if n = 0 then ⟨none, none, some 10⟩
      else if n = 1 then ⟨none, none, some 20⟩ else NodeAttr.empty,
    edges := [(0, 1)],
    edgeAttr := fun e => if e = (0, 1) then ⟨none, none, some 10⟩ else EdgeAttr.empty,
    vnrId := 0, arrival_time := 0, lifetime := 0 }

/-- Arrives at time 0. -/
def vnrQ1 : Graph :=
  { nodes := [1, 2],
    nodeAttr := fun n => if 1 ≤ n ∧ n ≤ 2 then ⟨none, none, some 10⟩ else NodeAttr.empty,
    edges := [(1, 2)],
    edgeAttr := fun e => if e = (1, 2) then ⟨none, none, some 5⟩ else EdgeAttr.empty,
    vnrId := 1, arrival_time := 0, lifetime := 20 }

/-- Arrives at time 100, three whole windows after `vnrQ1`. -/
def vnrQ2 : Graph :=
  { nodes := [1, 2],
    nodeAttr := fun n => if 1 ≤ n ∧ n ≤ 2 then ⟨none, none, some 10⟩ else NodeAttr.empty,
    edges := [(1, 2)],
    edgeAttr := fun e => if e = (1, 2) then ⟨none, none, some 5⟩ else EdgeAttr.empty,
    vnrId := 2, arrival_time := 100, lifetime := 20 }

/-- A 2-node substrate for the retry scenario. -/
def subC8 : Graph :=
  { nodes := [1, 2],
    nodeAttr := fun n => if 1 ≤ n ∧ n ≤ 2 then ⟨some 60, some 60, none⟩ else NodeAttr.empty,
    edges := [(1, 2)],
    edgeAttr := fun e => if e = (1, 2) then ⟨some 50, some 50, none⟩ else EdgeAttr.empty,
    vnrId := 0, arrival_time := 0, lifetime := 0 }

/-- A 3-node path VNR: three virtual nodes can never be placed disjointly
on a 2-node substrate, so it fails on every attempt. -/
def vnrC8 : Graph :=
  { nodes := [1, 2, 3],
    nodeAttr := fun n => if 1 ≤ n ∧ n ≤ 3 then ⟨none, none, some 50⟩ else NodeAttr.empty,
    edges := [(1, 2), (2, 3)],
    edgeAttr := fun e => if e = (1, 2) ∨ e = (2, 3) then ⟨none, none, some 10⟩ else EdgeAttr.empty,
    vnrId := 7, arrival_time := 0, lifetime := 20 }

/-! ### Claim theorems -/

/-- C1 (code_bug evidence): the capacity invariant does NOT hold on every
reachable state.  `simple_greedy_algorithm` feasibility-checks each virtual
link's path against the unmutated substrate, so two virtual links of the
same VNR that share a substrate edge are each checked against the full
availability; `allocate_resources` then debits both.  On the 3-node path
substrate `subC1` (bandwidth 50) with the star VNR `vnrC1` (two links of 26
sharing substrate edge 1–2), the embedding succeeds and the state reached
after the arrival event — the state `vne_simulation` carries into its next
event — has `bandwidth_available = -2 < 0` on edge (1,2). -/
theorem capacity_invariant_violated_on_reachable_state :
    (simRun simple_greedy_algorithm 1 (simInit subC1 [vnrC1])).results.map
        (fun r => r.success) = [true] ∧
    bwAvailVal (simRun simple_greedy_algorithm 1 (simInit subC1 [vnrC1])).sub
        (1, 2) = -2 ∧
    bwAvailVal (simRun simple_greedy_algorithm 1 (simInit subC1 [vnrC1])).sub
        (1, 2) < 0 ∧
    opt0 (subC1.edgeAttr (1, 2)).bandwidth = 50 := by decide

/-- C5 (counterexample): a departure and an arrival carry equal timestamps
(`vnrA5` departs at 10, `vnrB5` arrives at 10), the arriving VNR fails in
the run, yet the same strategy succeeds on the substrate with the departed
resources freed — so the arrival was NOT embedded against capacities that
include resources freed by the same-time departure, refuting the claimed
departures-before-arrivals processing order. -/
theorem same_time_departure_not_processed_first_cex :
    vnrB5.arrival_time = vnrA5.arrival_time + vnrA5.lifetime ∧
    (vne_simulation subC5 [vnrA5, vnrB5] simple_greedy_algorithm).results.map
        (fun r => (r.vnrId, r.success)) = [(1, true), (2, false)] ∧
    (simple_greedy_algorithm (initAvail subC5) vnrB5).2.2 = true := by decide

/-- C2 (counterexample): `rw_maxmatch_algorithm` fails on `subC2`/`vnrC2`
(the only substrate path has 5 bandwidth available, the virtual link needs
7) AFTER a successful node-mapping phase, and returns the computed
node mapping `[(1,1),(2,2)]` — not an empty/absent mapping — alongside
`success = False`. -/
theorem maxmatch_failure_returns_node_mapping_cex :
    rw_maxmatch_algorithm subC2 vnrC2 = (some [(1, 1), (2, 2)], none, false) := by
  decide

/-- C6 (counterexample): on `g6` with `epsilon = 1` the first iteration
already satisfies `total_diff < epsilon` (the change is 17/30), and
`compute_noderank` returns the PRE-iteration ranks (1/3, 2/3) — because the
`break` fires before `node_rank = new_rank` — while that iteration's
`new_rank` is (37/60, 23/60).  The claim that the converging iteration's
`new_rank` is returned is therefore false. -/
theorem noderank_returns_old_ranks_cex :
    Frac.Lt
      (totalDiff g6
        (nrStep g6 ⟨3, 20⟩ ⟨17, 20⟩ (fun n => (Frac.ofInt (H g6 n)).divInt (totalH g6)))
        (fun n => (Frac.ofInt (H g6 n)).divInt (totalH g6)))
      ⟨1, 1⟩ ∧
    (compute_noderank g6 100 ⟨1, 1⟩ ⟨3, 20⟩ ⟨17, 20⟩).isSome = true ∧
    Frac.Eqv (((compute_noderank g6 100 ⟨1, 1⟩ ⟨3, 20⟩ ⟨17, 20⟩).getD
      (fun _ => Frac.ofInt 0)) 0) ⟨1, 3⟩ ∧
    Frac.Eqv (((compute_noderank g6 100 ⟨1, 1⟩ ⟨3, 20⟩ ⟨17, 20⟩).getD
      (fun _ => Frac.ofInt 0)) 1) ⟨2, 3⟩ ∧
    Frac.Eqv
      (nrStep g6 ⟨3, 20⟩ ⟨17, 20⟩ (fun n => (Frac.ofInt (H g6 n)).divInt (totalH g6)) 0)
      ⟨37, 60⟩ ∧
    Frac.Eqv
      (nrStep g6 ⟨3, 20⟩ ⟨17, 20⟩ (fun n => (Frac.ofInt (H g6 n)).divInt (totalH g6)) 1)
      ⟨23, 60⟩ ∧
    ¬ Frac.Eqv ⟨1, 3⟩ ⟨37, 60⟩ ∧ ¬ Frac.Eqv ⟨2, 3⟩ ⟨23, 60⟩ := by decide

/-- `nrIterate g pj pf k r` is the rank map after `k` applications of the
iteration body to `r`. -/
def nrIterate (g : Graph) (pj pf : Frac) : ℕ → (ℕ → Frac) → (ℕ → Frac)
  | 0, r => r
  | k + 1, r => nrIterate g pj pf k (nrStep g pj pf r)

/-- The convergence test of the loop: the next step moves `r` by less than
`eps` in total absolute change. -/
def nrConv (g : Graph) (eps pj pf : Frac) (r : ℕ → Frac) : Prop :=
  Frac.Lt (totalDiff g (nrStep g pj pf r) r) eps

theorem nrLoop_char (g : Graph) (eps pj pf : Frac) :
    ∀ (fuel : ℕ) (r : ℕ → Frac),
      (∃ k, k < fuel ∧ nrConv g eps pj pf (nrIterate g pj pf k r) ∧
        (∀ j, j < k → ¬ nrConv g eps pj pf (nrIterate g pj pf j r)) ∧
        nrLoop g eps pj pf fuel r = nrIterate g pj pf k r) ∨
      ((∀ j, j < fuel → ¬ nrConv g eps pj pf (nrIterate g pj pf j r)) ∧
        nrLoop g eps pj pf fuel r = nrIterate g pj pf fuel r) := by
  intro fuel
  induction fuel with
  | zero =>
    intro r
    exact Or.inr ⟨fun j hj => absurd hj (Nat.not_lt_zero j), rfl⟩
  | succ f ih =>
    intro r
    by_cases hc : Frac.Lt (totalDiff g (nrStep g pj pf r) r) eps
    · refine Or.inl ⟨0, Nat.succ_pos f, hc, fun j hj => absurd hj (Nat.not_lt_zero j), ?_⟩
      show (if Frac.Lt (totalDiff g (nrStep g pj pf r) r) eps then r
            else nrLoop g eps pj pf f (nrStep g pj pf r)) = r
      rw [if_pos hc]
    · have hstep : nrLoop g eps pj pf (f + 1) r =
          nrLoop g eps pj pf f (nrStep g pj pf r) := by
        show (if Frac.Lt (totalDiff g (nrStep g pj pf r) r) eps then r
              else nrLoop g eps pj pf f (nrStep g pj pf r)) = _
        rw [if_neg hc]
      rcases ih (nrStep g pj pf r) with ⟨k, hk, hcv, hmin, heq⟩ | ⟨hmin, heq⟩
      · refine Or.inl ⟨k + 1, Nat.succ_lt_succ hk, hcv, ?_, by rw [hstep, heq]; rfl⟩
        intro j hj
        cases j with
        | zero => exact hc
        | succ j2 => exact hmin j2 (Nat.lt_of_succ_lt_succ hj)
      · refine Or.inr ⟨?_, by rw [hstep, heq]; rfl⟩
        intro j hj
        cases j with
        | zero => exact hc
        | succ j2 => exact hmin j2 (Nat.lt_of_succ_lt_succ hj)

/-- C6 (amended): whenever the total resource weight is nonzero,
`compute_noderank g max eps pj pf` either stops at the FIRST iteration `k`
whose total absolute change is below `eps` and returns the ranks from
BEFORE that iteration (`nrIterate k`, the old `node_rank`, not that
iteration's `new_rank`), or — if no iteration among the `max` converges —
silently returns the last computed ranks `nrIterate max`, without
signalling an error. -/
theorem noderank_stops_at_first_convergence_returns_old_ranks
    (g : Graph) (max : ℕ) (eps pj pf : Frac) (h : totalH g ≠ 0) :
    (∃ k, k < max ∧
      nrConv g eps pj pf
        (nrIterate g pj pf k (fun n => (Frac.ofInt (H g n)).divInt (totalH g))) ∧
      (∀ j, j < k → ¬ nrConv g eps pj pf
        (nrIterate g pj pf j (fun n => (Frac.ofInt (H g n)).divInt (totalH g)))) ∧
      compute_noderank g max eps pj pf =
        some (nrIterate g pj pf k (fun n => (Frac.ofInt (H g n)).divInt (totalH g)))) ∨
    ((∀ j, j < max → ¬ nrConv g eps pj pf
        (nrIterate g pj pf j (fun n => (Frac.ofInt (H g n)).divInt (totalH g)))) ∧
      compute_noderank g max eps pj pf =
        some (nrIterate g pj pf max (fun n => (Frac.ofInt (H g n)).divInt (totalH g)))) := by
  have hunf : compute_noderank g max eps pj pf =
      some (nrLoop g eps pj pf max (fun n => (Frac.ofInt (H g n)).divInt (totalH g))) := by
    unfold compute_noderank
    rw [if_neg h]
  rcases nrLoop_char g eps pj pf max
      (fun n => (Frac.ofInt (H g n)).divInt (totalH g)) with
    ⟨k, hk, hcv, hmin, heq⟩ | ⟨hmin, heq⟩
  · exact Or.inl ⟨k, hk, hcv, hmin, by rw [hunf, heq]⟩
  · exact Or.inr ⟨hmin, by rw [hunf, heq]⟩

/-- Witness for the amended C6 at the concrete graph `g6`, `eps = 1`. -/
theorem noderank_stops_at_first_convergence_witness :
    (∃ k, k < 100 ∧
      nrConv g6 ⟨1, 1⟩ ⟨3, 20⟩ ⟨17, 20⟩
        (nrIterate g6 ⟨3, 20⟩ ⟨17, 20⟩ k (fun n => (Frac.ofInt (H g6 n)).divInt (totalH g6))) ∧
      (∀ j, j < k → ¬ nrConv g6 ⟨1, 1⟩ ⟨3, 20⟩ ⟨17, 20⟩
        (nrIterate g6 ⟨3, 20⟩ ⟨17, 20⟩ j (fun n => (Frac.ofInt (H g6 n)).divInt (totalH g6)))) ∧
      compute_noderank g6 100 ⟨1, 1⟩ ⟨3, 20⟩ ⟨17, 20⟩ =
        some (nrIterate g6 ⟨3, 20⟩ ⟨17, 20⟩ k (fun n => (Frac.ofInt (H g6 n)).divInt (totalH g6)))) ∨
    ((∀ j, j < 100 → ¬ nrConv g6 ⟨1, 1⟩ ⟨3, 20⟩ ⟨17, 20⟩
        (nrIterate g6 ⟨3, 20⟩ ⟨17, 20⟩ j (fun n => (Frac.ofInt (H g6 n)).divInt (totalH g6)))) ∧
      compute_noderank g6 100 ⟨1, 1⟩ ⟨3, 20⟩ ⟨17, 20⟩ =
        some (nrIterate g6 ⟨3, 20⟩ ⟨17, 20⟩ 100 (fun n => (Frac.ofInt (H g6 n)).divInt (totalH g6)))) :=
  noderank_stops_at_first_convergence_returns_old_ranks g6 100 ⟨1, 1⟩ ⟨3, 20⟩ ⟨17, 20⟩
    (by decide)

/-- C9 (counterexample): with `time_window = 25` and arrivals at 0 and 100,
`create_chunks` puts the time-100 VNR into chunk index 1, whose boundary —
the `(i+1)·time_window` that `yu2008_algorithm` uses as that chunk's
`current_time` — is 50: the chunk's time slot does not contain the VNR's
arrival time. -/
theorem create_chunks_slot_mismatch_cex :
    (create_chunks [vnrQ1, vnrQ2] 25).map (fun c => c.map (fun v => v.vnrId)) =
      [[1], [2]] ∧
    vnrQ2.arrival_time = 100 ∧
    ¬ ((100 : ℤ) ≤ (1 + 1) * 25) := by decide

/-- The window bounds that `create_chunks` actually guarantees for chunk
index `k`: every non-first member arrives by the chunk's closing time
`(k+1)·tw`; the first member arrives by `tw` when `k = 0` and after `k·tw`
when `k ≥ 1` (but possibly far beyond `(k+1)·tw`). -/
def chunkOK (tw : ℤ) (k : ℕ) (c : List Graph) : Prop :=
  (∀ v ∈ c.tail, v.arrival_time ≤ ((k : ℤ) + 1) * tw) ∧
  (∀ v ∈ c.head?, (k = 0 → v.arrival_time ≤ tw) ∧
    (0 < k → (k : ℤ) * tw < v.arrival_time))

theorem createChunksAux_bounds (tw : ℤ) :
    ∀ (rest : List Graph) (chunks : List (List Graph)) (chunk : List Graph)
      (start : ℤ),
      start = (chunks.length : ℤ) * tw →
      (∀ k c, chunks.get? k = some c → chunkOK tw k c) →
      chunkOK tw chunks.length chunk →
      (chunk = [] → chunks.length = 0) →
      ∀ k c, (createChunksAux tw rest chunks chunk start).get? k = some c →
        chunkOK tw k c := by
  intro rest
  induction rest with
  | nil =>
    intro chunks chunk start hstart hchunks hcur hemp k c hk
    simp only [createChunksAux] at hk
    by_cases he : chunk.isEmpty
    · rw [if_pos he] at hk
      exact hchunks k c hk
    · rw [if_neg he] at hk
      rcases Nat.lt_or_ge k chunks.length with hlt | hge
      · rw [List.get?_append hlt] at hk
        exact hchunks k c hk
      · rw [List.get?_append_right hge] at hk
        rcases Nat.eq_or_lt_of_le hge with heq | hlt2
        · rw [← heq, Nat.sub_self] at hk
          have hc : c = chunk := by simpa using hk.symm
          subst hc
          rw [← heq]
          exact hcur
        · have : k - chunks.length ≥ 1 := by omega
          rw [List.get?_eq_none.mpr (by simpa using this)] at hk
          cases hk
  | cons v vrest ih =>
    intro chunks chunk start hstart hchunks hcur hemp k c hk
    simp only [createChunksAux] at hk
    by_cases hle : v.arrival_time ≤ start + tw
    · rw [if_pos hle] at hk
      refine ih chunks (chunk ++ [v]) start hstart hchunks ⟨?_, ?_⟩
        (by intro h; exact absurd h (by simp)) k c hk
      · intro w hw
        cases chunk with
        | nil => simp at hw
        | cons a t =>
          rw [List.cons_append, List.tail_cons] at hw
          rcases List.mem_append.mp hw with h1 | h1
          · exact hcur.1 w (by simpa using h1)
          · have : w = v := by simpa using h1
            subst this
            rw [hstart] at hle
            linarith
      · intro w hw
        cases chunk with
        | nil =>
          have hvw : v = w := by simpa using hw
          rw [← hvw]
          have hz := hemp rfl
          constructor
          · intro _
            rw [hstart, hz] at hle
            simpa using hle
          · intro hpos
            rw [hz] at hpos
            exact absurd hpos (Nat.lt_irrefl 0)
        | cons a t =>
          have hw2 : w ∈ (a :: t).head? := by simpa using hw
          exact hcur.2 w hw2
    · rw [if_neg hle] at hk
      refine ih (chunks ++ [chunk]) [v] (start + tw) ?_ ?_ ?_
        (by intro h; cases h) k c hk
      · rw [List.length_append, List.length_singleton, hstart]
        push_cast
        ring
      · intro k2 c2 hk2
        rcases Nat.lt_or_ge k2 chunks.length with hlt | hge
        · rw [List.get?_append hlt] at hk2
          exact hchunks k2 c2 hk2
        · rw [List.get?_append_right hge] at hk2
          rcases Nat.eq_or_lt_of_le hge with heq | hlt2
          · rw [← heq, Nat.sub_self] at hk2
            have hc2 : c2 = chunk := by simpa using hk2.symm
            subst hc2
            rw [← heq]
            exact hcur
          · have : k2 - chunks.length ≥ 1 := by omega
            rw [List.get?_eq_none.mpr (by simpa using this)] at hk2
            cases hk2
      · constructor
        · intro w hw
          simp at hw
        · intro w hw
          have hvw : v = w := by simpa using hw
          rw [← hvw]
          have hgt : start + tw < v.arrival_time := lt_of_not_le hle
          constructor
          · intro h0
            simp only [List.length_append, List.length_singleton] at h0
            exact absurd h0 (Nat.succ_ne_zero _)
          · intro _
            simp only [List.length_append, List.length_singleton]
            rw [hstart] at hgt
            push_cast
            linarith

/-- C9 (amended): `create_chunks` scans the arrival-sorted queue with a
boundary that advances exactly one `time_window` per closed chunk, so chunk
0's members and every non-first member of chunk `k` arrive by the chunk's
closing time `(k+1)·time_window` (the `current_time` that `yu2008_algorithm`
assigns to chunk `k` in `processChunk`), while the FIRST member of chunk
`k ≥ 1` is only guaranteed to arrive after `k·time_window` — after an
arrival gap longer than one window it lands in a chunk whose time slot does
not contain its `arrival_time`. -/
theorem create_chunks_window_bounds (queue : List Graph) (tw : ℤ)
    (k : ℕ) (c : List Graph) (hk : (create_chunks queue tw).get? k = some c) :
    chunkOK tw k c := by
  unfold create_chunks at hk
  refine createChunksAux_bounds tw _ [] [] 0 (by simp) ?_ ?_ (fun _ => rfl) k c hk
  · intro k2 c2 hk2
    cases hk2
  · exact ⟨fun w hw => by simp at hw, fun w hw => by simp at hw⟩

/-- Witness for the amended C9: on the queue with arrivals 0 and 100 and
window 25, chunk index 1 is `[vnrQ2]` and the bounds hold for it. -/
theorem create_chunks_window_bounds_witness :
    chunkOK 25 1 [vnrQ2] :=
  create_chunks_window_bounds [vnrQ1, vnrQ2] 25 1 [vnrQ2] rfl

/-- A zero-capacity substrate: both nodes have `cpu = 0` and
`cpu_available = 0`, the edge keeps positive bandwidth. -/
def subC7z : Graph :=
  { nodes := [1, 2],
    nodeAttr := fun n => if 1 ≤ n ∧ n ≤ 2 then ⟨some 0, some 0, none⟩ else NodeAttr.empty,
    edges := [(1, 2)],
    edgeAttr := fun e => if e = (1, 2) then ⟨some 50, some 50, none⟩ else EdgeAttr.empty,
    vnrId := 0, arrival_time := 0, lifetime := 0 }

/-- A graph with positive CPU on every node but no edges at all. -/
def gC10 : Graph :=
  { nodes := [1, 2],
    nodeAttr := fun n => if 1 ≤ n ∧ n ≤ 2 then ⟨some 60, some 60, none⟩ else NodeAttr.empty,
    edges := [], edgeAttr := fun _ => EdgeAttr.empty,
    vnrId := 0, arrival_time := 0, lifetime := 0 }

/-- C7: a graph whose total resource weight ΣH is zero (e.g. every node's
CPU quantity is zero) makes `compute_noderank` return the `None` sentinel
rather than all-zero ranks, and both ranked strategies
(`rw_bfs_algorithm`, `rw_maxmatch_algorithm`) given such a substrate or
such a VNR return `(None, None, False)` for every request. -/
theorem zero_weight_fails_ranked_strategies :
    (∀ g : Graph, (∀ n ∈ g.nodes, cpuVal g n = 0) → totalH g = 0) ∧
    (∀ g : Graph, totalH g = 0 → compute_noderankD g = none) ∧
    (∀ (sub vnr : Graph) (mh mb : ℕ), totalH sub = 0 ∨ totalH vnr = 0 →
      rw_bfs_algorithm sub vnr mh mb = (none, none, false) ∧
      rw_maxmatch_algorithm sub vnr = (none, none, false)) := by
  have hz : ∀ g : Graph, totalH g = 0 → compute_noderankD g = none := by
    intro g h
    unfold compute_noderankD compute_noderank
    rw [if_pos h]
  refine ⟨?_, hz, ?_⟩
  · intro g h
    unfold totalH
    apply List.sum_eq_zero
    intro x hx
    rcases List.mem_map.mp hx with ⟨n, hn, rfl⟩
    unfold H
    rw [h n hn, zero_mul]
  · intro sub vnr mh mb h
    constructor
    · unfold rw_bfs_algorithm
      rcases h with h | h
      · rw [hz sub h]
      · rw [hz vnr h]
        cases compute_noderankD sub <;> rfl
    · unfold rw_maxmatch_algorithm
      rcases h with h | h
      · rw [hz sub h]
      · rw [hz vnr h]
        cases compute_noderankD sub <;> rfl

/-- Witness for C7: the all-zero-cpu substrate `subC7z` makes NodeRank
undefined and both ranked strategies fail on a normal VNR. -/
theorem zero_weight_fails_ranked_strategies_witness :
    rw_bfs_algorithm subC7z vnrC2 3 3 = (none, none, false) ∧
    rw_maxmatch_algorithm subC7z vnrC2 = (none, none, false) ∧
    compute_noderankD subC7z = none ∧
    totalH subC7z = 0 := by
  have h3 := zero_weight_fails_ranked_strategies.2.2 subC7z vnrC2 3 3
    (Or.inl (by decide))
  exact ⟨h3.1, h3.2, zero_weight_fails_ranked_strategies.2.1 subC7z (by decide),
    by decide⟩

/-- C10: because `H(u) = cpu(u) × Σ(incident bandwidth)`, any graph in
which every node's total incident bandwidth quantity is zero — a graph
with no edges, or all-zero edge bandwidths — has `ΣH = 0` and gets the
`None` sentinel from `compute_noderank`, even when every node's CPU is
strictly positive. -/
theorem zero_bandwidth_gives_undefined_rank (g : Graph)
    (h : ∀ n ∈ g.nodes, ((neighbors g n).map (fun m => bwVal g n m)).sum = 0) :
    totalH g = 0 ∧ compute_noderankD g = none := by
  have ht : totalH g = 0 := by
    unfold totalH
    apply List.sum_eq_zero
    intro x hx
    rcases List.mem_map.mp hx with ⟨n, hn, rfl⟩
    unfold H
    rw [h n hn, mul_zero]
  refine ⟨ht, ?_⟩
  unfold compute_noderankD compute_noderank
  rw [if_pos ht]

/-- Witness for C10: `gC10` has cpu 60 on every node but no edges, and
NodeRank is undefined on it. -/
theorem zero_bandwidth_gives_undefined_rank_witness :
    (totalH gC10 = 0 ∧ compute_noderankD gC10 = none) ∧
    cpuVal gC10 1 = 60 ∧ cpuVal gC10 2 = 60 :=
  ⟨zero_bandwidth_gives_undefined_rank gC10 (by decide), by decide, by decide⟩

/-- A 2-node substrate with ample resources, on which every strategy embeds
`vnrC2` successfully. -/
def subOK : Graph :=
  { nodes := [1, 2],
    nodeAttr := fun n => if 1 ≤ n ∧ n ≤ 2 then ⟨some 60, some 40, none⟩ else NodeAttr.empty,
    edges := [(1, 2)],
    edgeAttr := fun e => if e = (1, 2) then ⟨some 50, some 30, none⟩ else EdgeAttr.empty,
    vnrId := 0, arrival_time := 0, lifetime := 0 }

theorem nodup_append_snd {nm : NodeMap} {v s : ℕ}
    (hd : (nm.map Prod.snd).Nodup) (hs : ¬ s ∈ nm.map Prod.snd) :
    ((nm ++ [(v, s)]).map Prod.snd).Nodup := by
  rw [List.map_append]
  exact List.Nodup.append hd (List.nodup_singleton s)
    (fun a ha hb => by
      simp only [List.map_cons, List.map_nil, List.mem_singleton] at hb
      exact hs (hb ▸ ha))

theorem btTryCands_not_mem (sub vnr : Graph) (vn : ℕ) (creq : ℤ) (nm : NodeMap)
    (parents : List (ℕ × Option ℕ)) (k : ℕ) :
    ∀ (cands : List ℕ) (r : ℕ × LinkMap),
      btTryCands sub vnr vn creq nm parents k cands = some r →
      ¬ r.1 ∈ nm.map Prod.snd := by
  intro cands
  induction cands with
  | nil => intro r h; cases h
  | cons c rest ih =>
    intro r h
    simp only [btTryCands] at h
    by_cases h1 : (nm.map Prod.snd).contains c = true
    · rw [if_pos h1] at h
      exact ih r h
    · rw [if_neg h1] at h
      by_cases h2 : decide (cpuAvailVal sub c < creq) = true
      · rw [if_pos h2] at h
        exact ih r h
      · rw [if_neg h2] at h
        by_cases h3 : check_hop_constraint sub vn c nm parents k = true
        · rw [if_pos h3] at h
          cases hl : bfsLinksLoop sub vnr vn c nm (neighbors vnr vn) [] with
          | some lms =>
            rw [hl] at h
            cases h
            intro hm
            exact h1 (by simpa using hm)
          | none =>
            rw [hl] at h
            exact ih r h
        · rw [if_neg h3] at h
          exact ih r h

theorem btKLoop_not_mem (sub vnr : Graph) (vn : ℕ) (creq : ℤ) (nm : NodeMap)
    (parents : List (ℕ × Option ℕ)) (cands : List ℕ) :
    ∀ (ks : List ℕ) (r : ℕ × LinkMap),
      btKLoop sub vnr vn creq nm parents cands ks = some r →
      ¬ r.1 ∈ nm.map Prod.snd := by
  intro ks
  induction ks with
  | nil => intro r h; cases h
  | cons k ks2 ih =>
    intro r h
    simp only [btKLoop] at h
    cases ht : btTryCands sub vnr vn creq nm parents k cands with
    | some r2 =>
      rw [ht] at h
      cases h
      exact btTryCands_not_mem sub vnr vn creq nm parents k cands _ ht
    | none =>
      rw [ht] at h
      exact ih r h

theorem match_vnr_node_not_mem (sub vnr : Graph) (vn : ℕ) (cands : List ℕ)
    (nm : NodeMap) (parents : List (ℕ × Option ℕ)) (mh : ℕ) (r : ℕ × LinkMap)
    (h : match_vnr_node sub vnr vn cands nm parents mh = some r) :
    ¬ r.1 ∈ nm.map Prod.snd := by
  simp only [match_vnr_node] at h
  by_cases he : nm.isEmpty = true
  · rw [if_pos he] at h
    rw [List.isEmpty_iff.mp he]
    simp
  · rw [if_neg he] at h
    exact btKLoop_not_mem sub vnr vn _ nm parents cands _ r h

theorem btLoop_nodup (sub vnr : Graph) (order : List ℕ)
    (parents : List (ℕ × Option ℕ)) (clists : List (ℕ × List ℕ))
    (max_hop max_backtrack : ℕ) :
    ∀ (fuel index : ℕ) (nm : NodeMap) (lm : LinkMap) (btc : ℕ)
      (tried : List (ℕ × List ℕ)) (res : NodeMap × LinkMap),
      btLoop sub vnr order parents clists max_hop max_backtrack
        fuel index nm lm btc tried = some res →
      (nm.map Prod.snd).Nodup → (res.1.map Prod.snd).Nodup := by
  intro fuel
  induction fuel with
  | zero => intro index nm lm btc tried res h _; cases h
  | succ f ih =>
    intro index nm lm btc tried res h hd
    simp only [btLoop] at h
    by_cases hidx : index < order.length
    · rw [dif_pos hidx] at h
      cases hm : match_vnr_node sub vnr (order.get ⟨index, hidx⟩)
          (((clists.lookup (order.get ⟨index, hidx⟩)).getD []).filter
            (fun c => ! ((tried.lookup (order.get ⟨index, hidx⟩)).getD []).contains c))
          nm parents max_hop with
      | some r =>
        rw [hm] at h
        refine ih (index + 1) (nm ++ [(order.get ⟨index, hidx⟩, r.1)])
          (updAssocList lm r.2) btc tried res h ?_
        exact nodup_append_snd hd
          (match_vnr_node_not_mem sub vnr _ _ nm parents max_hop r hm)
      | none =>
        rw [hm] at h
        by_cases hb : btc < max_backtrack ∧ 0 < index
        · rw [if_pos hb] at h
          cases hnm : nm.lookup (order.getD (index - 1) 0) with
          | some sp =>
            rw [hnm] at h
            refine ih (index - 1) (eraseKey nm (order.getD (index - 1) 0)) _
              (btc + 1) _ res h ?_
            exact List.Nodup.sublist
              (List.Sublist.map Prod.snd (List.filter_sublist nm)) hd
          | none =>
            rw [hnm] at h
            exact ih (index - 1) nm lm (btc + 1) _ res h hd
        · rw [if_neg hb] at h
          cases h
    · rw [dif_neg hidx] at h
      cases h
      exact hd

theorem yuPhase1Inner_nodup (vnr : Graph) (id : ℕ) (order : List ℕ) :
    ∀ (vs : List ℕ) (sub : Graph) (vnrNm : NodeMap)
      (nmap : List ((ℕ × ℕ) × ℕ)),
      (vnrNm.map Prod.snd).Nodup →
      (((yuPhase1Inner vnr id order vs sub vnrNm nmap).2.1).map Prod.snd).Nodup := by
  intro vs
  induction vs with
  | nil => intro sub vnrNm nmap hd; exact hd
  | cons v rest ih =>
    intro sub vnrNm nmap hd
    simp only [yuPhase1Inner]
    cases hf : order.find? (fun s =>
        ! (vnrNm.map Prod.snd).contains s &&
        decide (cpuReqVal vnr v ≤ cpuAvailVal sub s)) with
    | some s =>
      have hp := List.find?_some hf
      have hs : ¬ s ∈ vnrNm.map Prod.snd := by
        have h1 := ((Bool.and_eq_true _ _).mp hp).1
        simpa using h1
      exact ih _ (vnrNm ++ [(v, s)]) _ (nodup_append_snd hd hs)
    | none => exact hd

/-- C4: for every embedding whose node mapping the strategies return, the
node mapping is injective — no two virtual nodes of the same VNR share a
substrate node: (i) Greedy, (ii) RankedBFS (through its backtracking
search), (iii) RankedMaxMatch, and (iv) ChunkedBaseline's per-VNR
node-mapping pass (`yuPhase1Inner`, the function that constructs the
`vnr_node_mapping` recorded for a successful VNR). -/
theorem node_mapping_injective :
    (∀ (sub vnr : Graph) (nm : NodeMap),
      (simple_greedy_algorithm sub vnr).1 = some nm → (nm.map Prod.snd).Nodup) ∧
    (∀ (sub vnr : Graph) (mh mb : ℕ) (nm : NodeMap),
      (rw_bfs_algorithm sub vnr mh mb).1 = some nm → (nm.map Prod.snd).Nodup) ∧
    (∀ (sub vnr : Graph) (nm : NodeMap),
      (rw_maxmatch_algorithm sub vnr).1 = some nm → (nm.map Prod.snd).Nodup) ∧
    (∀ (vnr : Graph) (id : ℕ) (order vs : List ℕ) (sub : Graph)
      (nmap : List ((ℕ × ℕ) × ℕ)),
      (((yuPhase1Inner vnr id order vs sub [] nmap).2.1).map Prod.snd).Nodup) := by
  refine ⟨?_, ?_, ?_, ?_⟩
  · intro sub vnr nm h
    cases hn : greedyNodesLoop sub vnr (pySortDesc (cpuAvailVal sub) sub.nodes)
        vnr.nodes [] with
    | none => simp only [simple_greedy_algorithm, hn] at h; cases h
    | some nm0 =>
      cases hl : greedyLinksLoop sub vnr nm0 vnr.edges [] with
      | none => simp only [simple_greedy_algorithm, hn, hl] at h; cases h
      | some lm =>
        simp only [simple_greedy_algorithm, hn, hl, Option.some.injEq] at h
        subst h
        exact greedyNodesLoop_nodup sub vnr _ vnr.nodes [] nm0 hn (by simp)
  · intro sub vnr mh mb nm h
    cases hs : compute_noderankD sub with
    | none => simp only [rw_bfs_algorithm, hs] at h; cases h
    | some sr =>
      cases hv : compute_noderankD vnr with
      | none => simp only [rw_bfs_algorithm, hs, hv] at h; cases h
      | some vr =>
        cases hb : bfs_embedding_with_backtracking sub vnr
            (construct_bfs_tree_order vnr vr).1 (construct_bfs_tree_order vnr vr).2
            (build_candidate_lists sub vnr sr) mh mb with
        | none => simp only [rw_bfs_algorithm, hs, hv, hb] at h; cases h
        | some r =>
          simp only [rw_bfs_algorithm, hs, hv, hb, Option.some.injEq] at h
          subst h
          exact btLoop_nodup sub vnr _ _ _ mh mb _ 0 [] [] 0 _ r hb (by simp)
  · intro sub vnr nm h
    cases hs : compute_noderankD sub with
    | none => simp only [rw_maxmatch_algorithm, hs] at h; cases h
    | some sr =>
      cases hv : compute_noderankD vnr with
      | none => simp only [rw_maxmatch_algorithm, hs, hv] at h; cases h
      | some vr =>
        cases hn : rw_maxmatch_node_mapping sub vnr sr vr with
        | none => simp only [rw_maxmatch_algorithm, hs, hv, hn] at h; cases h
        | some nm0 =>
          have hn2 : (nm0.map Prod.snd).Nodup := by
            unfold rw_maxmatch_node_mapping at hn
            exact greedyNodesLoop_nodup sub vnr _ _ [] nm0 hn (by simp)
          cases hl : rw_maxmatch_link_mapping sub vnr nm0 vnr.edges [] with
          | none =>
            simp only [rw_maxmatch_algorithm, hs, hv, hn, hl, Option.some.injEq] at h
            subst h
            exact hn2
          | some lm =>
            simp only [rw_maxmatch_algorithm, hs, hv, hn, hl, Option.some.injEq] at h
            subst h
            exact hn2
  · intro vnr id order vs sub nmap
    exact yuPhase1Inner_nodup vnr id order vs sub [] nmap (by simp)

/-- Witness for C4: on `subOK`/`vnrC2` all four node mappers return the
injective mapping `[(1,1), (2,2)]`. -/
theorem node_mapping_injective_witness :
    (([(1, 1), (2, 2)] : NodeMap).map Prod.snd).Nodup ∧
    (([((1 : ℕ), (1 : ℕ)), (2, 2)] : NodeMap).map Prod.snd).Nodup ∧
    ((yuPhase1Inner vnrC2 3 [1, 2] [1, 2] subOK [] []).2.1.map Prod.snd).Nodup := by
  refine ⟨?_, ?_, ?_⟩
  · exact node_mapping_injective.1 subOK vnrC2 [(1, 1), (2, 2)] (by decide)
  · exact node_mapping_injective.2.1 subOK vnrC2 3 3 [(1, 1), (2, 2)] (by decide)
  · exact node_mapping_injective.2.2.2 vnrC2 3 [1, 2] [1, 2] subOK []

/-! ### Attempt counting for the ChunkedBaseline retry discipline (C8)

Every occurrence of a VNR in the (final, mutated) chunk list is processed
exactly once by the node-mapping pass of its chunk, so the number of
occurrences of a `vnr_id` across the final chunk list is the number of
embedding attempts made for it. -/

/-- Occurrences of `vnr_id = id` in one chunk. -/
def cntId (id : ℕ) (l : List Graph) : ℕ :=
  (l.filter (fun v => decide (v.vnrId = id))).length

/-- Occurrences of `vnr_id = id` across a chunk list. -/
def countOcc (id : ℕ) (chunks : List (List Graph)) : ℕ :=
  (chunks.map (cntId id)).sum

/-- The requeue-budget invariant carried through a chunk's two passes:
at most one occurrence of `id` in the failed list, and none at all while
`id`'s `retried` flag is still unset. -/
def yuQ (id : ℕ) (st : YuState) (failed : List Graph) : Prop :=
  cntId id failed ≤ 1 ∧ (st.flags id = false → cntId id failed = 0)

theorem cntId_append (id : ℕ) (a b : List Graph) :
    cntId id (a ++ b) = cntId id a + cntId id b := by
  simp [cntId, List.filter_append]

theorem insStable_perm {α : Type} (le : α → α → Bool) (a : α) :
    ∀ l : List α, List.Perm (insStable le a l) (a :: l) := by
  intro l
  induction l with
  | nil => rfl
  | cons b rest ih =>
    rw [insStable]
    by_cases h : le b a = true
    · rw [if_pos h]
      exact (ih.cons b).trans (List.Perm.swap a b rest)
    · rw [if_neg h]

theorem pyStableSort_perm_aux {α : Type} (le : α → α → Bool) :
    ∀ (l acc : List α),
      List.Perm (l.foldl (fun acc x => insStable le x acc) acc) (acc ++ l) := by
  intro l
  induction l with
  | nil => intro acc; simp
  | cons a rest ih =>
    intro acc
    rw [List.foldl_cons]
    refine (ih (insStable le a acc)).trans ?_
    have h1 : List.Perm (insStable le a acc ++ rest) ((a :: acc) ++ rest) :=
      (insStable_perm le a acc).append_right rest
    refine h1.trans ?_
    simpa using (List.perm_middle).symm

theorem pyStableSort_perm {α : Type} (le : α → α → Bool) (l : List α) :
    List.Perm (pyStableSort le l) l := by
  simpa using pyStableSort_perm_aux le l []

theorem cntId_perm (id : ℕ) {l l2 : List Graph} (h : List.Perm l l2) :
    cntId id l = cntId id l2 :=
  (h.filter _).length_eq

theorem countOcc_append (id : ℕ) (chunks : List (List Graph)) (F : List Graph) :
    countOcc id (chunks ++ [F]) = countOcc id chunks + cntId id F := by
  simp [countOcc]

theorem countOcc_set_plus (id : ℕ) :
    ∀ (chunks : List (List Graph)) (i : ℕ) (c : List Graph),
      i < chunks.length →
      countOcc id (chunks.set i c) + cntId id ((chunks.get? i).getD []) =
        countOcc id chunks + cntId id c := by
  intro chunks
  induction chunks with
  | nil => intro i c h; exact absurd h (Nat.not_lt_zero i)
  | cons a rest ih =>
    intro i c h
    cases i with
    | zero =>
      simp only [List.set, List.get?, countOcc, List.map_cons, List.sum_cons,
        Option.getD_some]
      omega
    | succ i2 =>
      have h2 : i2 < rest.length := Nat.lt_of_succ_lt_succ h
      have := ih i2 c h2
      simp only [List.set, List.get?, countOcc, List.map_cons, List.sum_cons] at this ⊢
      omega

theorem foldl_flags {α : Type} (f : YuState → α → YuState)
    (h : ∀ s a, (f s a).flags = s.flags) :
    ∀ (l : List α) (s : YuState), (l.foldl f s).flags = s.flags := by
  intro l
  induction l with
  | nil => intro s; rfl
  | cons a rest ih => intro s; rw [List.foldl_cons, ih, h]

theorem foldl_chunks {α : Type} (f : YuState → α → YuState)
    (h : ∀ s a, (f s a).chunks = s.chunks) :
    ∀ (l : List α) (s : YuState), (l.foldl f s).chunks = s.chunks := by
  intro l
  induction l with
  | nil => intro s; rfl
  | cons a rest ih => intro s; rw [List.foldl_cons, ih, h]

theorem flags_yuDeallocVnr (st : YuState) (id : ℕ) (vnr : Graph) :
    (yuDeallocVnr st id vnr).flags = st.flags := by
  unfold yuDeallocVnr
  refine Eq.trans (foldl_flags _ ?_ _ _) (foldl_flags _ ?_ _ _)
  · intro s e
    split <;> rfl
  · intro s v
    rfl

theorem chunks_yuDeallocVnr (st : YuState) (id : ℕ) (vnr : Graph) :
    (yuDeallocVnr st id vnr).chunks = st.chunks := by
  unfold yuDeallocVnr
  refine Eq.trans (foldl_chunks _ ?_ _ _) (foldl_chunks _ ?_ _ _)
  · intro s e
    split <;> rfl
  · intro s v
    rfl

theorem flags_processDepartures (t : ℤ) (st : YuState) :
    (processDepartures t st).flags = st.flags := by
  unfold processDepartures
  refine foldl_flags _ (fun s e => ?_) st.active st
  by_cases h : e.2.1 ≤ t
  · simp only [if_pos h]
    rw [flags_yuDeallocVnr]
  · simp only [if_neg h]

theorem chunks_processDepartures (t : ℤ) (st : YuState) :
    (processDepartures t st).chunks = st.chunks := by
  unfold processDepartures
  refine foldl_chunks _ (fun s e => ?_) st.active st
  by_cases h : e.2.1 ≤ t
  · simp only [if_pos h]
    rw [chunks_yuDeallocVnr]
  · simp only [if_neg h]

theorem chunks_yuFlagRequeue (st : YuState) (vnr : Graph) (failed : List Graph) :
    (yuFlagRequeue st vnr failed).1.chunks = st.chunks := by
  unfold yuFlagRequeue
  split <;> rfl

theorem yuFlagRequeue_flags_mono (st : YuState) (vnr : Graph)
    (failed : List Graph) (id : ℕ) (h : st.flags id = true) :
    (yuFlagRequeue st vnr failed).1.flags id = true := by
  unfold yuFlagRequeue
  by_cases hf : st.flags vnr.vnrId = true
  · rw [if_pos hf]; exact h
  · rw [if_neg hf]
    show fnUpd st.flags vnr.vnrId true id = true
    unfold fnUpd
    by_cases hid : id = vnr.vnrId <;> simp [hid, h]

theorem yuFlagRequeue_frozen (st : YuState) (vnr : Graph)
    (failed : List Graph) (id : ℕ) (h : st.flags id = true) :
    cntId id (yuFlagRequeue st vnr failed).2 = cntId id failed := by
  unfold yuFlagRequeue
  by_cases hf : st.flags vnr.vnrId = true
  · rw [if_pos hf]
  · rw [if_neg hf]
    have hne : vnr.vnrId ≠ id := fun he => hf (he ▸ h)
    show cntId id (failed ++ [vnr]) = cntId id failed
    rw [cntId_append]
    simp [cntId, hne]

theorem yuFlagRequeue_Q (st : YuState) (vnr : Graph) (failed : List Graph)
    (id : ℕ) (h : yuQ id st failed) :
    yuQ id (yuFlagRequeue st vnr failed).1 (yuFlagRequeue st vnr failed).2 := by
  unfold yuFlagRequeue
  by_cases hf : st.flags vnr.vnrId = true
  · rw [if_pos hf]; exact h
  · rw [if_neg hf]
    by_cases hid : vnr.vnrId = id
    · subst hid
      have hff : st.flags vnr.vnrId = false := Bool.eq_false_iff.mpr hf
      have h0 : cntId vnr.vnrId failed = 0 := h.2 hff
      have h1 : cntId vnr.vnrId [vnr] = 1 := by simp [cntId]
      constructor
      · show cntId vnr.vnrId (failed ++ [vnr]) ≤ 1
        rw [cntId_append, h0, h1]
      · intro hfl
        show cntId vnr.vnrId (failed ++ [vnr]) = 0
        exfalso
        have : fnUpd st.flags vnr.vnrId true vnr.vnrId = false := hfl
        simp [fnUpd] at this
    · have h1 : cntId id [vnr] = 0 := by simp [cntId, hid]
      constructor
      · show cntId id (failed ++ [vnr]) ≤ 1
        rw [cntId_append, h1]
        simpa using h.1
      · intro hfl
        show cntId id (failed ++ [vnr]) = 0
        have hfl2 : st.flags id = false := by
          have : fnUpd st.flags vnr.vnrId true id = false := hfl
          unfold fnUpd at this
          rw [if_neg (fun he => hid he.symm)] at this
          exact this
        rw [cntId_append, h.2 hfl2, h1]

theorem chunks_yuPhase1Vnr (st : YuState) (vnr : Graph) (failed : List Graph) :
    (yuPhase1Vnr st vnr failed).1.chunks = st.chunks := by
  simp only [yuPhase1Vnr]
  split
  · exact chunks_yuFlagRequeue st vnr failed
  · split
    · rfl
    · exact chunks_yuFlagRequeue _ vnr failed

theorem yuPhase1Vnr_flags_mono (st : YuState) (vnr : Graph) (failed : List Graph)
    (id : ℕ) (h : st.flags id = true) :
    (yuPhase1Vnr st vnr failed).1.flags id = true := by
  simp only [yuPhase1Vnr]
  split
  · exact yuFlagRequeue_flags_mono st vnr failed id h
  · split
    · exact h
    · exact yuFlagRequeue_flags_mono _ vnr failed id h

theorem yuPhase1Vnr_frozen (st : YuState) (vnr : Graph) (failed : List Graph)
    (id : ℕ) (h : st.flags id = true) :
    cntId id (yuPhase1Vnr st vnr failed).2.1 = cntId id failed := by
  simp only [yuPhase1Vnr]
  split
  · exact yuFlagRequeue_frozen st vnr failed id h
  · split
    · rfl
    · exact yuFlagRequeue_frozen _ vnr failed id h

theorem yuPhase1Vnr_Q (st : YuState) (vnr : Graph) (failed : List Graph)
    (id : ℕ) (h : yuQ id st failed) :
    yuQ id (yuPhase1Vnr st vnr failed).1 (yuPhase1Vnr st vnr failed).2.1 := by
  simp only [yuPhase1Vnr]
  split
  · exact yuFlagRequeue_Q st vnr failed id h
  · split
    · exact h
    · exact yuFlagRequeue_Q _ vnr failed id h

theorem chunks_yuPhase2Vnr (current : ℤ) (st : YuState) (vnr : Graph)
    (failed : List Graph) :
    (yuPhase2Vnr current st vnr failed).1.chunks = st.chunks := by
  simp only [yuPhase2Vnr]
  split
  · rfl
  · exact chunks_yuFlagRequeue _ vnr failed

theorem yuPhase2Vnr_flags_mono (current : ℤ) (st : YuState) (vnr : Graph)
    (failed : List Graph) (id : ℕ) (h : st.flags id = true) :
    (yuPhase2Vnr current st vnr failed).1.flags id = true := by
  simp only [yuPhase2Vnr]
  split
  · exact h
  · exact yuFlagRequeue_flags_mono _ vnr failed id h

theorem yuPhase2Vnr_frozen (current : ℤ) (st : YuState) (vnr : Graph)
    (failed : List Graph) (id : ℕ) (h : st.flags id = true) :
    cntId id (yuPhase2Vnr current st vnr failed).2.1 = cntId id failed := by
  simp only [yuPhase2Vnr]
  split
  · rfl
  · exact yuFlagRequeue_frozen _ vnr failed id h

theorem yuPhase2Vnr_Q (current : ℤ) (st : YuState) (vnr : Graph)
    (failed : List Graph) (id : ℕ) (h : yuQ id st failed) :
    yuQ id (yuPhase2Vnr current st vnr failed).1
      (yuPhase2Vnr current st vnr failed).2.1 := by
  simp only [yuPhase2Vnr]
  split
  · exact h
  · exact yuFlagRequeue_Q _ vnr failed id h

theorem yuP1Fold_chunks :
    ∀ (chunk : List Graph) (a : YuState × List Graph × List Graph),
      ((chunk.foldl (fun acc vnr =>
        let r := yuPhase1Vnr acc.1 vnr acc.2.1
        (r.1, r.2.1, if r.2.2 then acc.2.2 ++ [vnr] else acc.2.2)) a)).1.chunks =
      a.1.chunks := by
  intro chunk
  induction chunk with
  | nil => intro a; rfl
  | cons vnr rest ih =>
    intro a
    rw [List.foldl_cons, ih]
    exact chunks_yuPhase1Vnr a.1 vnr a.2.1

theorem yuP1Fold_frozen (id : ℕ) :
    ∀ (chunk : List Graph) (a : YuState × List Graph × List Graph),
      a.1.flags id = true →
      ((chunk.foldl (fun acc vnr =>
        let r := yuPhase1Vnr acc.1 vnr acc.2.1
        (r.1, r.2.1, if r.2.2 then acc.2.2 ++ [vnr] else acc.2.2)) a)).1.flags id
          = true ∧
      cntId id ((chunk.foldl (fun acc vnr =>
        let r := yuPhase1Vnr acc.1 vnr acc.2.1
        (r.1, r.2.1, if r.2.2 then acc.2.2 ++ [vnr] else acc.2.2)) a)).2.1 =
        cntId id a.2.1 := by
  intro chunk
  induction chunk with
  | nil => intro a h; exact ⟨h, rfl⟩
  | cons vnr rest ih =>
    intro a h
    rw [List.foldl_cons]
    have h2 := ih (let r := yuPhase1Vnr a.1 vnr a.2.1
      (r.1, r.2.1, if r.2.2 then a.2.2 ++ [vnr] else a.2.2))
      (yuPhase1Vnr_flags_mono a.1 vnr a.2.1 id h)
    exact ⟨h2.1, h2.2.trans (yuPhase1Vnr_frozen a.1 vnr a.2.1 id h)⟩

theorem yuP1Fold_Q (id : ℕ) :
    ∀ (chunk : List Graph) (a : YuState × List Graph × List Graph),
      yuQ id a.1 a.2.1 →
      yuQ id ((chunk.foldl (fun acc vnr =>
        let r := yuPhase1Vnr acc.1 vnr acc.2.1
        (r.1, r.2.1, if r.2.2 then acc.2.2 ++ [vnr] else acc.2.2)) a)).1
        ((chunk.foldl (fun acc vnr =>
          let r := yuPhase1Vnr acc.1 vnr acc.2.1
          (r.1, r.2.1, if r.2.2 then acc.2.2 ++ [vnr] else acc.2.2)) a)).2.1 := by
  intro chunk
  induction chunk with
  | nil => intro a h; exact h
  | cons vnr rest ih =>
    intro a h
    rw [List.foldl_cons]
    exact ih _ (yuPhase1Vnr_Q a.1 vnr a.2.1 id h)

theorem yuP2Fold_chunks (current : ℤ) :
    ∀ (vnrs : List Graph) (a : YuState × List Graph),
      ((vnrs.foldl (fun acc vnr =>
        let r := yuPhase2Vnr current acc.1 vnr acc.2
        (r.1, r.2.1)) a)).1.chunks = a.1.chunks := by
  intro vnrs
  induction vnrs with
  | nil => intro a; rfl
  | cons vnr rest ih =>
    intro a
    rw [List.foldl_cons, ih]
    exact chunks_yuPhase2Vnr current a.1 vnr a.2

theorem yuP2Fold_frozen (current : ℤ) (id : ℕ) :
    ∀ (vnrs : List Graph) (a : YuState × List Graph),
      a.1.flags id = true →
      ((vnrs.foldl (fun acc vnr =>
        let r := yuPhase2Vnr current acc.1 vnr acc.2
        (r.1, r.2.1)) a)).1.flags id = true ∧
      cntId id ((vnrs.foldl (fun acc vnr =>
        let r := yuPhase2Vnr current acc.1 vnr acc.2
        (r.1, r.2.1)) a)).2 = cntId id a.2 := by
  intro vnrs
  induction vnrs with
  | nil => intro a h; exact ⟨h, rfl⟩
  | cons vnr rest ih =>
    intro a h
    rw [List.foldl_cons]
    have h2 := ih (let r := yuPhase2Vnr current a.1 vnr a.2
      (r.1, r.2.1)) (yuPhase2Vnr_flags_mono current a.1 vnr a.2 id h)
    exact ⟨h2.1, h2.2.trans (yuPhase2Vnr_frozen current a.1 vnr a.2 id h)⟩

theorem yuP2Fold_Q (current : ℤ) (id : ℕ) :
    ∀ (vnrs : List Graph) (a : YuState × List Graph),
      yuQ id a.1 a.2 →
      yuQ id ((vnrs.foldl (fun acc vnr =>
        let r := yuPhase2Vnr current acc.1 vnr acc.2
        (r.1, r.2.1)) a)).1
        ((vnrs.foldl (fun acc vnr =>
          let r := yuPhase2Vnr current acc.1 vnr acc.2
          (r.1, r.2.1)) a)).2 := by
  intro vnrs
  induction vnrs with
  | nil => intro a h; exact h
  | cons vnr rest ih =>
    intro a h
    rw [List.foldl_cons]
    exact ih _ (yuPhase2Vnr_Q current a.1 vnr a.2 id h)

def yuSorted (st : YuState) (i : ℕ) : List Graph :=
  pySortDesc calculate_revenue ((st.chunks.get? i).getD [])

def yuSt2 (tw : ℤ) (st : YuState) (i : ℕ) : YuState :=
  let st1 := processDepartures ((i + 1 : ℤ) * tw) st
  { st1 with chunks := st1.chunks.set i (yuSorted st i) }

/-- The state and failed list after the two passes of `processChunk`,
before the requeue step. -/
def yuP2 (tw : ℤ) (st : YuState) (i : ℕ) : YuState × List Graph :=
  let p1 := yuPhase1Chunk (yuSt2 tw st i) (yuSorted st i)
  yuPhase2Chunk ((i + 1 : ℤ) * tw) p1.1 (pySortDesc calculate_revenue p1.2.2) p1.2.1

theorem yuSt2_chunks (tw : ℤ) (st : YuState) (i : ℕ) :
    (yuSt2 tw st i).chunks = st.chunks.set i (yuSorted st i) := by
  show (processDepartures ((i + 1 : ℤ) * tw) st).chunks.set i (yuSorted st i) = _
  rw [chunks_processDepartures]

theorem yuSt2_flags (tw : ℤ) (st : YuState) (i : ℕ) :
    (yuSt2 tw st i).flags = st.flags := by
  show (processDepartures ((i + 1 : ℤ) * tw) st).flags = _
  rw [flags_processDepartures]

theorem yuPasses_chunks (current : ℤ) (st2 : YuState) (sorted : List Graph) :
    (yuPhase2Chunk current (yuPhase1Chunk st2 sorted).1
      (pySortDesc calculate_revenue (yuPhase1Chunk st2 sorted).2.2)
      (yuPhase1Chunk st2 sorted).2.1).1.chunks = st2.chunks := by
  unfold yuPhase2Chunk
  rw [yuP2Fold_chunks]
  show (yuPhase1Chunk st2 sorted).1.chunks = st2.chunks
  unfold yuPhase1Chunk
  exact yuP1Fold_chunks sorted (st2, [], [])

theorem yuPasses_frozen (current : ℤ) (id : ℕ) (st2 : YuState)
    (sorted : List Graph) (h : st2.flags id = true) :
    (yuPhase2Chunk current (yuPhase1Chunk st2 sorted).1
      (pySortDesc calculate_revenue (yuPhase1Chunk st2 sorted).2.2)
      (yuPhase1Chunk st2 sorted).2.1).1.flags id = true ∧
    cntId id (yuPhase2Chunk current (yuPhase1Chunk st2 sorted).1
      (pySortDesc calculate_revenue (yuPhase1Chunk st2 sorted).2.2)
      (yuPhase1Chunk st2 sorted).2.1).2 = 0 := by
  have f1 : (yuPhase1Chunk st2 sorted).1.flags id = true ∧
      cntId id (yuPhase1Chunk st2 sorted).2.1 = cntId id ([] : List Graph) := by
    unfold yuPhase1Chunk
    exact yuP1Fold_frozen id sorted (st2, [], []) h
  have f2 := yuP2Fold_frozen current id
    (pySortDesc calculate_revenue (yuPhase1Chunk st2 sorted).2.2)
    ((yuPhase1Chunk st2 sorted).1, (yuPhase1Chunk st2 sorted).2.1) f1.1
  constructor
  · show (yuPhase2Chunk current (yuPhase1Chunk st2 sorted).1
      (pySortDesc calculate_revenue (yuPhase1Chunk st2 sorted).2.2)
      (yuPhase1Chunk st2 sorted).2.1).1.flags id = true
    unfold yuPhase2Chunk
    exact f2.1
  · have h3 : cntId id (yuPhase2Chunk current (yuPhase1Chunk st2 sorted).1
        (pySortDesc calculate_revenue (yuPhase1Chunk st2 sorted).2.2)
        (yuPhase1Chunk st2 sorted).2.1).2 = cntId id (yuPhase1Chunk st2 sorted).2.1 := by
      unfold yuPhase2Chunk
      exact f2.2
    rw [h3, f1.2]
    simp [cntId]

theorem yuPasses_Q (current : ℤ) (id : ℕ) (st2 : YuState)
    (sorted : List Graph) :
    yuQ id (yuPhase2Chunk current (yuPhase1Chunk st2 sorted).1
      (pySortDesc calculate_revenue (yuPhase1Chunk st2 sorted).2.2)
      (yuPhase1Chunk st2 sorted).2.1).1
      (yuPhase2Chunk current (yuPhase1Chunk st2 sorted).1
        (pySortDesc calculate_revenue (yuPhase1Chunk st2 sorted).2.2)
        (yuPhase1Chunk st2 sorted).2.1).2 := by
  have hQ0 : yuQ id st2 [] :=
    ⟨by simp [cntId], fun _ => by simp [cntId]⟩
  have hQ1 : yuQ id (yuPhase1Chunk st2 sorted).1 (yuPhase1Chunk st2 sorted).2.1 := by
    unfold yuPhase1Chunk
    exact yuP1Fold_Q id sorted (st2, [], []) hQ0
  unfold yuPhase2Chunk
  exact yuP2Fold_Q current id
    (pySortDesc calculate_revenue (yuPhase1Chunk st2 sorted).2.2)
    ((yuPhase1Chunk st2 sorted).1, (yuPhase1Chunk st2 sorted).2.1) hQ1

/-- The requeue step preserves the at-most-twice budget: if the final
state's chunk occurrences of `id` plus those of the failed list are within
budget, so is the requeued chunk list (the failed list lands in exactly one
slot: chunk `i+1` or a new trailing chunk). -/
theorem yuRequeue_R (id i : ℕ) (st4 : YuState) (failed : List Graph)
    (hA : countOcc id st4.chunks + cntId id failed ≤
      1 + (if st4.flags id then 1 else 0)) :
    countOcc id (if failed.isEmpty then st4
      else if i < st4.chunks.length - 1 then
        { st4 with chunks := st4.chunks.set (i + 1) (((st4.chunks.get? (i + 1)).getD []) ++ failed) }
      else { st4 with chunks := st4.chunks ++ [failed] }).chunks ≤
    1 + (if (if failed.isEmpty then st4
      else if i < st4.chunks.length - 1 then
        { st4 with chunks := st4.chunks.set (i + 1) (((st4.chunks.get? (i + 1)).getD []) ++ failed) }
      else { st4 with chunks := st4.chunks ++ [failed] }).flags id then 1 else 0) := by
  by_cases hemp : failed.isEmpty = true
  · rw [if_pos hemp]
    omega
  · rw [if_neg hemp]
    by_cases hlt : i < st4.chunks.length - 1
    · rw [if_pos hlt]
      show countOcc id (st4.chunks.set (i + 1)
          (((st4.chunks.get? (i + 1)).getD []) ++ failed)) ≤
        1 + (if st4.flags id then 1 else 0)
      have hi1 : i + 1 < st4.chunks.length := by omega
      have hsp := countOcc_set_plus id st4.chunks (i + 1)
        ((((st4.chunks.get? (i + 1))).getD []) ++ failed) hi1
      rw [cntId_append] at hsp
      omega
    · rw [if_neg hlt]
      show countOcc id (st4.chunks ++ [failed]) ≤
        1 + (if st4.flags id then 1 else 0)
      rw [countOcc_append]
      omega

theorem processChunk_R (tw : ℤ) (id : ℕ) (st : YuState) (i : ℕ)
    (hi : i < st.chunks.length)
    (hR : countOcc id st.chunks ≤ 1 + (if st.flags id then 1 else 0)) :
    countOcc id (processChunk tw st i).chunks ≤
      1 + (if (processChunk tw st i).flags id then 1 else 0) := by
  have hch : (yuP2 tw st i).1.chunks = st.chunks.set i (yuSorted st i) := by
    have h1 : (yuP2 tw st i).1.chunks = (yuSt2 tw st i).chunks := by
      have := yuPasses_chunks ((i + 1 : ℤ) * tw) (yuSt2 tw st i) (yuSorted st i)
      simpa only [yuP2] using this
    rw [h1, yuSt2_chunks]
  have hcnt : countOcc id (yuP2 tw st i).1.chunks = countOcc id st.chunks := by
    rw [hch]
    have hsp := countOcc_set_plus id st.chunks i (yuSorted st i) hi
    have hperm : cntId id (yuSorted st i) =
        cntId id ((st.chunks.get? i).getD []) :=
      cntId_perm id (pyStableSort_perm _ _)
    rw [hperm] at hsp
    omega
  have hfroz : st.flags id = true →
      (yuP2 tw st i).1.flags id = true ∧ cntId id (yuP2 tw st i).2 = 0 := by
    intro h
    have h2 : (yuSt2 tw st i).flags id = true := by rw [yuSt2_flags]; exact h
    have := yuPasses_frozen ((i + 1 : ℤ) * tw) id (yuSt2 tw st i) (yuSorted st i) h2
    simpa only [yuP2] using this
  have hQ2 : yuQ id (yuP2 tw st i).1 (yuP2 tw st i).2 := by
    have := yuPasses_Q ((i + 1 : ℤ) * tw) id (yuSt2 tw st i) (yuSorted st i)
    simpa only [yuP2] using this
  have hA : countOcc id (yuP2 tw st i).1.chunks + cntId id (yuP2 tw st i).2 ≤
      1 + (if (yuP2 tw st i).1.flags id then 1 else 0) := by
    rw [hcnt]
    by_cases hf : st.flags id = true
    · rcases hfroz hf with ⟨hf4, hc0⟩
      have e1 : (if (yuP2 tw st i).1.flags id then 1 else 0 : ℕ) = 1 := by
        simp [hf4]
      have e2 : (if st.flags id then 1 else 0 : ℕ) = 1 := by simp [hf]
      rw [e1, hc0]
      rw [e2] at hR
      omega
    · have hff : st.flags id = false := Bool.eq_false_iff.mpr hf
      have e2 : (if st.flags id then 1 else 0 : ℕ) = 0 := by simp [hff]
      rw [e2] at hR
      by_cases hf4 : (yuP2 tw st i).1.flags id = true
      · have e1 : (if (yuP2 tw st i).1.flags id then 1 else 0 : ℕ) = 1 := by
          simp [hf4]
        rw [e1]
        have := hQ2.1
        omega
      · have hff4 : (yuP2 tw st i).1.flags id = false := Bool.eq_false_iff.mpr hf4
        have e1 : (if (yuP2 tw st i).1.flags id then 1 else 0 : ℕ) = 0 := by
          simp [hff4]
        rw [e1]
        have := hQ2.2 hff4
        omega
  have hdef : processChunk tw st i =
      (if (yuP2 tw st i).2.isEmpty then (yuP2 tw st i).1
       else if i < (yuP2 tw st i).1.chunks.length - 1 then
         { (yuP2 tw st i).1 with chunks := (yuP2 tw st i).1.chunks.set (i + 1) ((((yuP2 tw st i).1.chunks.get? (i + 1)).getD []) ++ (yuP2 tw st i).2) }
       else { (yuP2 tw st i).1 with chunks := (yuP2 tw st i).1.chunks ++ [(yuP2 tw st i).2] }) := rfl
  rw [hdef]
  exact yuRequeue_R id i (yuP2 tw st i).1 (yuP2 tw st i).2 hA

theorem yuLoop_R (tw : ℤ) (id : ℕ) :
    ∀ (fuel i : ℕ) (st : YuState),
      countOcc id st.chunks ≤ 1 + (if st.flags id then 1 else 0) →
      countOcc id (yuLoop tw fuel i st).chunks ≤
        1 + (if (yuLoop tw fuel i st).flags id then 1 else 0) := by
  intro fuel
  induction fuel with
  | zero => intro i st h; exact h
  | succ f ih =>
    intro i st h
    by_cases hi : i < st.chunks.length
    · have hstep : yuLoop tw (f + 1) i st =
          yuLoop tw f (i + 1) (processChunk tw st i) := by
        simp only [yuLoop]
        exact if_pos hi
      rw [hstep]
      exact ih (i + 1) _ (processChunk_R tw id st i hi h)
    · have hstep : yuLoop tw (f + 1) i st = st := by
        simp only [yuLoop]
        exact if_neg hi
      rw [hstep]
      exact h

theorem cpuDelta_append (vnr : Graph) (n : ℕ) (a b : NodeMap) :
    cpuDelta vnr n (a ++ b) = cpuDelta vnr n a + cpuDelta vnr n b := by
  induction a with
  | nil => simp [cpuDelta]
  | cons p rest ih => rw [List.cons_append, cpuDelta, cpuDelta, ih]; ring

theorem lookup_map_overwrite {α β : Type} [BEq α] [LawfulBEq α] [DecidableEq α] (k k2 : α) (v : β)
    (m : List (α × β)) :
    (m.map fun p => if p.1 = k then (k, v) else p).lookup k2 =
      if k2 = k then
        (if m.any (fun p => decide (p.1 = k)) then some v else m.lookup k2)
      else m.lookup k2 := by
  induction m with
  | nil => by_cases h : k2 = k <;> simp [h]
  | cons p rest ih =>
    by_cases hp : p.1 = k
    · rw [List.map_cons, if_pos hp]
      by_cases h2 : k2 = k
      · subst h2
        have hany : ((p :: rest).any fun p => decide (p.1 = k2)) = true := by
          simp [List.any_cons, hp]
        rw [if_pos rfl, if_pos hany]
        simp [List.lookup]
      · have hne : (k2 == k) = false := by simpa using h2
        have hstep : List.lookup k2 ((k, v) ::
            List.map (fun p => if p.1 = k then (k, v) else p) rest) =
            List.lookup k2 (List.map (fun p => if p.1 = k then (k, v) else p) rest) := by
          simp [List.lookup, hne]
        rw [hstep, ih, if_neg h2, if_neg h2]
        have hne2 : (k2 == p.1) = false := by
          simpa using fun hc : k2 = p.1 => h2 (hc.trans hp)
        simp [List.lookup, hne2]
    · rw [List.map_cons, if_neg hp]
      by_cases h3 : k2 = p.1
      · have hb : (k2 == p.1) = true := by simpa using h3
        have h2 : ¬ k2 = k := fun hc => hp (h3.symm.trans hc)
        have hany : ((p :: rest).any fun p => decide (p.1 = k)) =
            (rest.any fun p => decide (p.1 = k)) := by
          simp [List.any_cons, hp]
        simp [List.lookup, hb, h2]
      · have hb : (k2 == p.1) = false := by simpa using h3
        have hstep : List.lookup k2 (p ::
            List.map (fun p => if p.1 = k then (k, v) else p) rest) =
            List.lookup k2 (List.map (fun p => if p.1 = k then (k, v) else p) rest) := by
          simp [List.lookup, hb]
        rw [hstep, ih]
        by_cases h2 : k2 = k
        · rw [if_pos h2, if_pos h2]
          have hany : ((p :: rest).any fun p => decide (p.1 = k)) =
              (rest.any fun p => decide (p.1 = k)) := by
            simp [List.any_cons, hp]
          rw [hany]
          by_cases hr : (rest.any fun p => decide (p.1 = k)) = true
          · rw [if_pos hr, if_pos hr]
          · rw [if_neg hr, if_neg hr]
            simp [List.lookup, hb]
        · rw [if_neg h2, if_neg h2]
          simp [List.lookup, hb]

theorem lookup_append_single {α β : Type} [BEq α] [LawfulBEq α] [DecidableEq α] (k k2 : α) (v : β) :
    ∀ m : List (α × β), (∀ p ∈ m, p.1 ≠ k) →
    (m ++ [(k, v)]).lookup k2 = if k2 = k then some v else m.lookup k2 := by
  intro m
  induction m with
  | nil =>
    intro _
    by_cases h2 : k2 = k
    · have hb : (k2 == k) = true := by simpa using h2
      simp [List.lookup, hb, h2]
    · have hb : (k2 == k) = false := by simpa using h2
      simp [List.lookup, hb, h2]
  | cons p rest ih =>
    intro hm
    by_cases h3 : k2 = p.1
    · have hb : (k2 == p.1) = true := by simpa using h3
      have h2 : ¬ k2 = k := fun hc => hm p (List.mem_cons_self p rest) (h3.symm.trans hc)
      simp [List.lookup, hb, h2]
    · have hb : (k2 == p.1) = false := by simpa using h3
      simp only [List.cons_append, List.lookup, hb]
      exact ih (fun q hq => hm q (List.mem_cons_of_mem p hq))

theorem lookup_updAssoc {α β : Type} [BEq α] [LawfulBEq α] [DecidableEq α] (m : List (α × β))
    (k : α) (v : β) (k2 : α) :
    (updAssoc m k v).lookup k2 = if k2 = k then some v else m.lookup k2 := by
  unfold updAssoc
  by_cases ha : m.any (fun p => decide (p.1 = k)) = true
  · rw [if_pos ha, lookup_map_overwrite, ha]
    by_cases h2 : k2 = k <;> simp [h2]
  · rw [if_neg ha]
    have hm : ∀ p ∈ m, p.1 ≠ k := by
      intro p hp hc
      exact ha (by
        simp only [List.any_eq_true]
        exact ⟨p, hp, by simp [hc]⟩)
    exact lookup_append_single k k2 v m hm

theorem lookup_eraseKey {α β : Type} [BEq α] [LawfulBEq α] [DecidableEq α] (m : List (α × β))
    (k k2 : α) :
    (eraseKey m k).lookup k2 = if k2 = k then none else m.lookup k2 := by
  unfold eraseKey
  induction m with
  | nil => by_cases h2 : k2 = k <;> simp [h2]
  | cons p rest ih =>
    by_cases hp : p.1 = k
    · have hdrop : List.filter (fun p => decide (p.1 ≠ k)) (p :: rest) =
          List.filter (fun p => decide (p.1 ≠ k)) rest := by
        rw [List.filter_cons]
        simp [hp]
      rw [hdrop, ih]
      by_cases h2 : k2 = k
      · rw [if_pos h2, if_pos h2]
      · rw [if_neg h2, if_neg h2]
        have hb : (k2 == p.1) = false := by
          simpa using fun hc : k2 = p.1 => h2 (hc.trans hp)
        simp [List.lookup, hb]
    · have hkeep : List.filter (fun p => decide (p.1 ≠ k)) (p :: rest) =
          p :: List.filter (fun p => decide (p.1 ≠ k)) rest := by
        rw [List.filter_cons]
        simp [hp]
      rw [hkeep]
      by_cases h3 : k2 = p.1
      · have hb : (k2 == p.1) = true := by simpa using h3
        have h2 : ¬ k2 = k := fun hc => hp (h3.symm.trans hc)
        simp [List.lookup, hb, h2]
      · have hb : (k2 == p.1) = false := by simpa using h3
        simp only [List.lookup, hb]
        exact ih

theorem yuPhase2Edges_cpu (vnr : Graph) (id : ℕ) (nmap : List ((ℕ × ℕ) × ℕ)) :
    ∀ (es : List (ℕ × ℕ)) (sub : Graph) (lmap : List ((ℕ × (ℕ × ℕ)) × List ℕ))
      (n : ℕ),
      cpuAvailVal (yuPhase2Edges vnr id nmap es sub lmap).1 n =
        cpuAvailVal sub n := by
  intro es
  induction es with
  | nil => intro sub lmap n; rfl
  | cons e rest ih =>
    intro sub lmap n
    cases hfp : yuFindPath sub (bwReqVal vnr e)
        (shortest_simple_paths sub ((nmap.lookup (id, e.1)).getD 0)
          ((nmap.lookup (id, e.2)).getD 0)) with
    | some path =>
      have hphase : yuPhase2Edges vnr id nmap (e :: rest) sub lmap =
          yuPhase2Edges vnr id nmap rest (allocPathBw (bwReqVal vnr e) sub path)
            (updAssoc lmap (id, e) path) := by
        simp only [yuPhase2Edges, hfp]
      rw [hphase, ih]
      exact cpuAvailVal_allocPathBw _ _ _ _
    | none =>
      have hphase : yuPhase2Edges vnr id nmap (e :: rest) sub lmap =
          (sub, lmap, false) := by
        simp only [yuPhase2Edges, hfp]
      rw [hphase]

theorem yuPhase2Edges_lookup_frozen (vnr : Graph) (id : ℕ)
    (nmap : List ((ℕ × ℕ) × ℕ)) :
    ∀ (es : List (ℕ × ℕ)) (sub : Graph) (lmap : List ((ℕ × (ℕ × ℕ)) × List ℕ))
      (key : ℕ × (ℕ × ℕ)),
      (∀ e ∈ es, key ≠ (id, e)) →
      (yuPhase2Edges vnr id nmap es sub lmap).2.1.lookup key = lmap.lookup key := by
  intro es
  induction es with
  | nil => intro sub lmap key h; rfl
  | cons e rest ih =>
    intro sub lmap key h
    cases hfp : yuFindPath sub (bwReqVal vnr e)
        (shortest_simple_paths sub ((nmap.lookup (id, e.1)).getD 0)
          ((nmap.lookup (id, e.2)).getD 0)) with
    | some path =>
      have hphase : yuPhase2Edges vnr id nmap (e :: rest) sub lmap =
          yuPhase2Edges vnr id nmap rest (allocPathBw (bwReqVal vnr e) sub path)
            (updAssoc lmap (id, e) path) := by
        simp only [yuPhase2Edges, hfp]
      rw [hphase, ih _ _ _ (fun e2 he2 => h e2 (List.mem_cons_of_mem e he2))]
      rw [lookup_updAssoc, if_neg (h e (List.mem_cons_self e rest))]
    | none =>
      have hphase : yuPhase2Edges vnr id nmap (e :: rest) sub lmap =
          (sub, lmap, false) := by
        simp only [yuPhase2Edges, hfp]
      rw [hphase]

theorem yuRollbackFold_cpu (vnr : Graph) (id : ℕ) :
    ∀ (es : List (ℕ × ℕ)) (acc : Graph × List ((ℕ × (ℕ × ℕ)) × List ℕ)) (n : ℕ),
      cpuAvailVal ((es.foldl
        (fun (acc : Graph × List ((ℕ × (ℕ × ℕ)) × List ℕ)) e =>
          match acc.2.lookup (id, e) with
          | some path =>
            (deallocPathBw (bwReqVal vnr e) acc.1 path, eraseKey acc.2 (id, e))
          | none => acc) acc)).1 n = cpuAvailVal acc.1 n := by
  intro es
  induction es with
  | nil => intro acc n; rfl
  | cons e rest ih =>
    intro acc n
    rw [List.foldl_cons, ih]
    cases hl : acc.2.lookup (id, e) with
    | some path =>
      simp only [hl]
      exact cpuAvailVal_deallocPathBw _ _ _ _
    | none => simp only [hl]

theorem yuRollbackFold_id (vnr : Graph) (id : ℕ) :
    ∀ (es : List (ℕ × ℕ)) (g : Graph)
      (lmapF : List ((ℕ × (ℕ × ℕ)) × List ℕ)),
      (∀ e ∈ es, lmapF.lookup (id, e) = none) →
      es.foldl (fun (acc : Graph × List ((ℕ × (ℕ × ℕ)) × List ℕ)) e =>
        match acc.2.lookup (id, e) with
        | some path =>
          (deallocPathBw (bwReqVal vnr e) acc.1 path, eraseKey acc.2 (id, e))
        | none => acc) (g, lmapF) = (g, lmapF) := by
  intro es
  induction es with
  | nil => intro g lmapF h; rfl
  | cons e rest ih =>
    intro g lmapF h
    rw [List.foldl_cons]
    have hle : lmapF.lookup (id, e) = none := h e (List.mem_cons_self e rest)
    simp only [hle]
    exact ih g lmapF (fun e2 he2 => h e2 (List.mem_cons_of_mem e he2))

/-- The rollback ledger of the ChunkedBaseline link pass: starting from any
graph, folding the failure-branch deallocation over the edge list credits
back exactly the bandwidth the pass debited, provided the incoming link map
held no entry for this VNR's edges (freshness) and the edge list has no
duplicates. -/
theorem yuPhase2Edges_rollback (vnr : Graph) (id : ℕ)
    (nmap : List ((ℕ × ℕ) × ℕ)) :
    ∀ (es : List (ℕ × ℕ)) (sub : Graph) (lmap : List ((ℕ × (ℕ × ℕ)) × List ℕ)),
      es.Nodup →
      (∀ e ∈ es, lmap.lookup (id, e) = none) →
      ∀ (g : Graph) (lmapF : List ((ℕ × (ℕ × ℕ)) × List ℕ)),
        (∀ e ∈ es, lmapF.lookup (id, e) =
          (yuPhase2Edges vnr id nmap es sub lmap).2.1.lookup (id, e)) →
        ∀ k, bwAvailVal ((es.foldl
            (fun (acc : Graph × List ((ℕ × (ℕ × ℕ)) × List ℕ)) e =>
              match acc.2.lookup (id, e) with
              | some path =>
                (deallocPathBw (bwReqVal vnr e) acc.1 path, eraseKey acc.2 (id, e))
              | none => acc) (g, lmapF))).1 k =
          bwAvailVal g k +
            (bwAvailVal sub k - bwAvailVal (yuPhase2Edges vnr id nmap es sub lmap).1 k) := by
  intro es
  induction es with
  | nil =>
    intro sub lmap hnd hfresh g lmapF hF k
    show bwAvailVal g k = bwAvailVal g k + (bwAvailVal sub k - bwAvailVal sub k)
    ring
  | cons e rest ih =>
    intro sub lmap hnd hfresh g lmapF hF k
    have hndr : rest.Nodup := (List.nodup_cons.mp hnd).2
    have henr : e ∉ rest := (List.nodup_cons.mp hnd).1
    have hpair : ∀ e2 : ℕ × ℕ, e2 ∈ rest →
        ((id, e2) : ℕ × (ℕ × ℕ)) ≠ (id, e) := by
      intro e2 he2 hc
      have he : e2 = e := by
        simp only [Prod.mk.injEq] at hc
        exact hc.2
      exact henr (he ▸ he2)
    cases hfp : yuFindPath sub (bwReqVal vnr e)
        (shortest_simple_paths sub ((nmap.lookup (id, e.1)).getD 0)
          ((nmap.lookup (id, e.2)).getD 0)) with
    | none =>
      have hphase : yuPhase2Edges vnr id nmap (e :: rest) sub lmap =
          (sub, lmap, false) := by
        simp only [yuPhase2Edges, hfp]
      rw [hphase] at hF
      rw [hphase]
      rw [List.foldl_cons]
      have hle : lmapF.lookup (id, e) = none := by
        rw [hF e (List.mem_cons_self e rest)]
        exact hfresh e (List.mem_cons_self e rest)
      simp only [hle]
      have hrest : ∀ e2 ∈ rest, lmapF.lookup (id, e2) = none := by
        intro e2 he2
        rw [hF e2 (List.mem_cons_of_mem e he2)]
        exact hfresh e2 (List.mem_cons_of_mem e he2)
      rw [yuRollbackFold_id vnr id rest g lmapF hrest]
      show bwAvailVal g k = bwAvailVal g k + (bwAvailVal sub k - bwAvailVal sub k)
      ring
    | some path =>
      have hphase : yuPhase2Edges vnr id nmap (e :: rest) sub lmap =
          yuPhase2Edges vnr id nmap rest (allocPathBw (bwReqVal vnr e) sub path)
            (updAssoc lmap (id, e) path) := by
        simp only [yuPhase2Edges, hfp]
      rw [hphase] at hF
      rw [hphase]
      have hfreshr : ∀ e2 ∈ rest,
          (updAssoc lmap (id, e) path).lookup (id, e2) = none := by
        intro e2 he2
        rw [lookup_updAssoc, if_neg (hpair e2 he2)]
        exact hfresh e2 (List.mem_cons_of_mem e he2)
      have hre : (yuPhase2Edges vnr id nmap rest
          (allocPathBw (bwReqVal vnr e) sub path)
          (updAssoc lmap (id, e) path)).2.1.lookup (id, e) = some path := by
        rw [yuPhase2Edges_lookup_frozen vnr id nmap rest _ _ (id, e)
          (fun e2 he2 hc => hpair e2 he2 hc.symm)]
        rw [lookup_updAssoc, if_pos rfl]
      have hle : lmapF.lookup (id, e) = some path := by
        rw [hF e (List.mem_cons_self e rest)]
        exact hre
      rw [List.foldl_cons]
      simp only [hle]
      have hFr : ∀ e2 ∈ rest, (eraseKey lmapF (id, e)).lookup (id, e2) =
          (yuPhase2Edges vnr id nmap rest (allocPathBw (bwReqVal vnr e) sub path)
            (updAssoc lmap (id, e) path)).2.1.lookup (id, e2) := by
        intro e2 he2
        rw [lookup_eraseKey, if_neg (hpair e2 he2)]
        exact hF e2 (List.mem_cons_of_mem e he2)
      have hih := ih (allocPathBw (bwReqVal vnr e) sub path)
        (updAssoc lmap (id, e) path) hndr hfreshr
        (deallocPathBw (bwReqVal vnr e) g path) (eraseKey lmapF (id, e)) hFr k
      rw [hih, bwAvailVal_deallocPathBw, bwAvailVal_allocPathBw]
      ring

theorem sub_yuFlagRequeue (st : YuState) (vnr : Graph) (failed : List Graph) :
    (yuFlagRequeue st vnr failed).1.sub = st.sub := by
  unfold yuFlagRequeue
  split <;> rfl

theorem yuPhase1Inner_fail_cpu (vnr : Graph) (id : ℕ) (order : List ℕ) :
    ∀ (vs : List ℕ) (sub : Graph) (vnrNm : NodeMap) (nmap : List ((ℕ × ℕ) × ℕ)),
      (yuPhase1Inner vnr id order vs sub vnrNm nmap).2.2.2 = false →
      ∀ n, cpuAvailVal (yuPhase1Inner vnr id order vs sub vnrNm nmap).1 n =
        cpuAvailVal sub n + cpuDelta vnr n vnrNm := by
  intro vs
  induction vs with
  | nil =>
    intro sub vnrNm nmap h n
    simp [yuPhase1Inner] at h
  | cons v rest ih =>
    intro sub vnrNm nmap h n
    cases hf : order.find? (fun s =>
        ! (vnrNm.map Prod.snd).contains s &&
        decide (cpuReqVal vnr v ≤ cpuAvailVal sub s)) with
    | some st =>
      have hrec : yuPhase1Inner vnr id order (v :: rest) sub vnrNm nmap =
          yuPhase1Inner vnr id order rest
            (setCpuAvail sub st (cpuAvailVal sub st - cpuReqVal vnr v))
            (vnrNm ++ [(v, st)]) (updAssoc nmap (id, v) st) := by
        simp only [yuPhase1Inner, hf]
      rw [hrec] at h ⊢
      rw [ih _ _ _ h n, cpuDelta_append, cpuAvailVal_setCpuAvail]
      simp only [cpuDelta]
      by_cases hsn : n = st
      · rw [hsn]
        rw [if_pos rfl]
        rw [if_pos rfl]
        omega
      · rw [if_neg hsn, if_neg (fun hc => hsn hc.symm : ¬ st = n)]
        omega
    | none =>
      have hrec : yuPhase1Inner vnr id order (v :: rest) sub vnrNm nmap =
          (vnrNm.foldl
            (fun g p => setCpuAvail g p.2 (cpuAvailVal g p.2 + cpuReqVal vnr p.1))
            sub,
           vnrNm, vnrNm.foldl (fun m p => eraseKey m (id, p.1)) nmap, false) := by
        simp only [yuPhase1Inner, hf]
      rw [hrec]
      exact cpuAvailVal_deallocCpuFold vnr vnrNm sub n

theorem yuPhase1Inner_bw (vnr : Graph) (id : ℕ) (order : List ℕ) :
    ∀ (vs : List ℕ) (sub : Graph) (vnrNm : NodeMap) (nmap : List ((ℕ × ℕ) × ℕ))
      (e : ℕ × ℕ),
      bwAvailVal (yuPhase1Inner vnr id order vs sub vnrNm nmap).1 e =
        bwAvailVal sub e := by
  intro vs
  induction vs with
  | nil => intro sub vnrNm nmap e; rfl
  | cons v rest ih =>
    intro sub vnrNm nmap e
    cases hf : order.find? (fun s =>
        ! (vnrNm.map Prod.snd).contains s &&
        decide (cpuReqVal vnr v ≤ cpuAvailVal sub s)) with
    | some st =>
      have hrec : yuPhase1Inner vnr id order (v :: rest) sub vnrNm nmap =
          yuPhase1Inner vnr id order rest
            (setCpuAvail sub st (cpuAvailVal sub st - cpuReqVal vnr v))
            (vnrNm ++ [(v, st)]) (updAssoc nmap (id, v) st) := by
        simp only [yuPhase1Inner, hf]
      rw [hrec, ih]
      exact bwAvailVal_setCpuAvail _ _ _ _
    | none =>
      have hrec : yuPhase1Inner vnr id order (v :: rest) sub vnrNm nmap =
          (vnrNm.foldl
            (fun g p => setCpuAvail g p.2 (cpuAvailVal g p.2 + cpuReqVal vnr p.1))
            sub,
           vnrNm, vnrNm.foldl (fun m p => eraseKey m (id, p.1)) nmap, false) := by
        simp only [yuPhase1Inner, hf]
      rw [hrec]
      exact bwAvailVal_deallocCpuFold vnr vnrNm sub e

/-- The result of the virtual-node loop as invoked by `yuPhase1Vnr`. -/
def yuP1R (st : YuState) (vnr : Graph) :
    Graph × NodeMap × List ((ℕ × ℕ) × ℕ) × Bool :=
  yuPhase1Inner vnr vnr.vnrId
    (pySortDesc (get_node_rank st.sub)
      (st.sub.nodes.filter fun n =>
        decide (pyMinQ (vnr.nodes.map (cpuReqVal vnr)) ≤ cpuAvailVal st.sub n)))
    vnr.nodes st.sub [] st.nodeMap

/-- A failed node-mapping pass of the ChunkedBaseline leaves every
`cpu_available` and `bandwidth_available` value of the substrate exactly as
it was before the attempt (partial CPU allocations are credited back). -/
theorem yuPhase1Vnr_fail_sub (st : YuState) (vnr : Graph) (failed : List Graph)
    (h : (yuPhase1Vnr st vnr failed).2.2 = false) :
    (∀ n, cpuAvailVal (yuPhase1Vnr st vnr failed).1.sub n = cpuAvailVal st.sub n) ∧
    (∀ e, bwAvailVal (yuPhase1Vnr st vnr failed).1.sub e = bwAvailVal st.sub e) := by
  by_cases hS : (st.sub.nodes.filter fun n =>
      decide (pyMinQ (vnr.nodes.map (cpuReqVal vnr)) ≤ cpuAvailVal st.sub n)).isEmpty = true
  · have hdef : yuPhase1Vnr st vnr failed =
        ((yuFlagRequeue st vnr failed).1, (yuFlagRequeue st vnr failed).2, false) := by
      simp only [yuPhase1Vnr]
      rw [if_pos hS]
    rw [hdef]
    constructor
    · intro n
      show cpuAvailVal (yuFlagRequeue st vnr failed).1.sub n = cpuAvailVal st.sub n
      rw [sub_yuFlagRequeue]
    · intro e
      show bwAvailVal (yuFlagRequeue st vnr failed).1.sub e = bwAvailVal st.sub e
      rw [sub_yuFlagRequeue]
  · by_cases hr : (yuPhase1Inner vnr vnr.vnrId
        (pySortDesc (get_node_rank st.sub)
          (st.sub.nodes.filter fun n =>
            decide (pyMinQ (vnr.nodes.map (cpuReqVal vnr)) ≤ cpuAvailVal st.sub n)))
        vnr.nodes st.sub [] st.nodeMap).2.2.2 = true
    · exfalso
      have hT : (yuPhase1Vnr st vnr failed).2.2 = true := by
        simp only [yuPhase1Vnr]
        rw [if_neg hS, if_pos hr]
      rw [hT] at h
      cases h
    · have hrf : (yuP1R st vnr).2.2.2 = false := Bool.eq_false_iff.mpr hr
      have hdef : yuPhase1Vnr st vnr failed =
          ((yuFlagRequeue { st with sub := (yuP1R st vnr).1, nodeMap := (yuP1R st vnr).2.2.1 } vnr failed).1,
           (yuFlagRequeue { st with sub := (yuP1R st vnr).1, nodeMap := (yuP1R st vnr).2.2.1 } vnr failed).2, false) := by
        simp only [yuPhase1Vnr]
        rw [if_neg hS, if_neg hr]
        rfl
      rw [hdef]
      constructor
      · intro n
        show cpuAvailVal (yuFlagRequeue { st with sub := (yuP1R st vnr).1, nodeMap := (yuP1R st vnr).2.2.1 } vnr failed).1.sub n = cpuAvailVal st.sub n
        rw [sub_yuFlagRequeue]
        show cpuAvailVal (yuP1R st vnr).1 n = cpuAvailVal st.sub n
        have hc := yuPhase1Inner_fail_cpu vnr vnr.vnrId
          (pySortDesc (get_node_rank st.sub)
            (st.sub.nodes.filter fun n =>
              decide (pyMinQ (vnr.nodes.map (cpuReqVal vnr)) ≤ cpuAvailVal st.sub n)))
          vnr.nodes st.sub [] st.nodeMap hrf n
        rw [show cpuDelta vnr n [] = 0 from rfl] at hc
        rw [show (yuP1R st vnr).1 = (yuPhase1Inner vnr vnr.vnrId
          (pySortDesc (get_node_rank st.sub)
            (st.sub.nodes.filter fun n =>
              decide (pyMinQ (vnr.nodes.map (cpuReqVal vnr)) ≤ cpuAvailVal st.sub n)))
          vnr.nodes st.sub [] st.nodeMap).1 from rfl]
        omega
      · intro e
        show bwAvailVal (yuFlagRequeue { st with sub := (yuP1R st vnr).1, nodeMap := (yuP1R st vnr).2.2.1 } vnr failed).1.sub e = bwAvailVal st.sub e
        rw [sub_yuFlagRequeue]
        show bwAvailVal (yuP1R st vnr).1 e = bwAvailVal st.sub e
        exact yuPhase1Inner_bw vnr vnr.vnrId
          (pySortDesc (get_node_rank st.sub)
            (st.sub.nodes.filter fun n =>
              decide (pyMinQ (vnr.nodes.map (cpuReqVal vnr)) ≤ cpuAvailVal st.sub n)))
          vnr.nodes st.sub [] st.nodeMap e

/-- The link-pass result as invoked by `yuPhase2Vnr`. -/
def yuP2E (st : YuState) (vnr : Graph) :
    Graph × List ((ℕ × (ℕ × ℕ)) × List ℕ) × Bool :=
  yuPhase2Edges vnr vnr.vnrId st.nodeMap vnr.edges st.sub st.linkMap

/-- The CPU-credit fold of `yuPhase2Vnr`'s failure branch. -/
def yuSub1 (st : YuState) (vnr : Graph) : Graph :=
  vnr.nodes.foldl
    (fun g v =>
      let s := (st.nodeMap.lookup (vnr.vnrId, v)).getD 0
      setCpuAvail g s (cpuAvailVal g s + cpuReqVal vnr v))
    (yuP2E st vnr).1

/-- The bandwidth-rollback fold of `yuPhase2Vnr`'s failure branch. -/
def yuRb (st : YuState) (vnr : Graph) :
    Graph × List ((ℕ × (ℕ × ℕ)) × List ℕ) :=
  vnr.edges.foldl
    (fun (acc : Graph × List ((ℕ × (ℕ × ℕ)) × List ℕ)) e =>
      match acc.2.lookup (vnr.vnrId, e) with
      | some path =>
        (deallocPathBw (bwReqVal vnr e) acc.1 path, eraseKey acc.2 (vnr.vnrId, e))
      | none => acc)
    (yuSub1 st vnr, (yuP2E st vnr).2.1)

theorem yuSub1_eq (st : YuState) (vnr : Graph) :
    yuSub1 st vnr =
      (vnr.nodes.map fun v => (v, (st.nodeMap.lookup (vnr.vnrId, v)).getD 0)).foldl
        (deallocCpuStep vnr) (yuP2E st vnr).1 := by
  rw [List.foldl_map]
  rfl

/-- A failed link-mapping pass of the ChunkedBaseline restores every
`bandwidth_available` value exactly and credits back exactly this VNR's
recorded CPU allocations, provided the incoming link map holds no entry for
this VNR's edges and the VNR's edge list has no duplicates. -/
theorem yuPhase2Vnr_fail_sub (current : ℤ) (st : YuState) (vnr : Graph)
    (failed : List Graph)
    (hnd : vnr.edges.Nodup)
    (hfresh : ∀ e ∈ vnr.edges, st.linkMap.lookup (vnr.vnrId, e) = none)
    (h : (yuPhase2Vnr current st vnr failed).2.2 = false) :
    (∀ k, bwAvailVal (yuPhase2Vnr current st vnr failed).1.sub k =
      bwAvailVal st.sub k) ∧
    (∀ n, cpuAvailVal (yuPhase2Vnr current st vnr failed).1.sub n =
      cpuAvailVal st.sub n + cpuDelta vnr n
        (vnr.nodes.map fun v => (v, (st.nodeMap.lookup (vnr.vnrId, v)).getD 0))) := by
  by_cases hr : (yuPhase2Edges vnr vnr.vnrId st.nodeMap vnr.edges st.sub
      st.linkMap).2.2 = true
  · exfalso
    have hT : (yuPhase2Vnr current st vnr failed).2.2 = true := by
      simp only [yuPhase2Vnr]
      rw [if_pos hr]
    rw [hT] at h
    cases h
  · have hdef : yuPhase2Vnr current st vnr failed =
        ((yuFlagRequeue { st with sub := (yuRb st vnr).1, nodeMap := vnr.nodes.foldl (fun m v => eraseKey m (vnr.vnrId, v)) st.nodeMap, linkMap := (yuRb st vnr).2 } vnr failed).1,
         (yuFlagRequeue { st with sub := (yuRb st vnr).1, nodeMap := vnr.nodes.foldl (fun m v => eraseKey m (vnr.vnrId, v)) st.nodeMap, linkMap := (yuRb st vnr).2 } vnr failed).2, false) := by
      simp only [yuPhase2Vnr]
      rw [if_neg hr]
      rfl
    have hsub1bw : ∀ k, bwAvailVal (yuSub1 st vnr) k =
        bwAvailVal (yuP2E st vnr).1 k := by
      intro k
      rw [yuSub1_eq]
      exact bwAvailVal_deallocCpuFold vnr _ _ k
    have hsub1cpu : ∀ n, cpuAvailVal (yuSub1 st vnr) n =
        cpuAvailVal (yuP2E st vnr).1 n + cpuDelta vnr n
          (vnr.nodes.map fun v => (v, (st.nodeMap.lookup (vnr.vnrId, v)).getD 0)) := by
      intro n
      rw [yuSub1_eq]
      exact cpuAvailVal_deallocCpuFold vnr _ _ n
    have hcpuE : ∀ n, cpuAvailVal (yuP2E st vnr).1 n = cpuAvailVal st.sub n :=
      fun n => yuPhase2Edges_cpu vnr vnr.vnrId st.nodeMap vnr.edges st.sub
        st.linkMap n
    have hrbbw : ∀ k, bwAvailVal (yuRb st vnr).1 k =
        bwAvailVal (yuSub1 st vnr) k +
          (bwAvailVal st.sub k - bwAvailVal (yuP2E st vnr).1 k) :=
      fun k => yuPhase2Edges_rollback vnr vnr.vnrId st.nodeMap vnr.edges st.sub
        st.linkMap hnd hfresh (yuSub1 st vnr) (yuP2E st vnr).2.1
        (fun e he => rfl) k
    have hrbcpu : ∀ n, cpuAvailVal (yuRb st vnr).1 n =
        cpuAvailVal (yuSub1 st vnr) n :=
      fun n => yuRollbackFold_cpu vnr vnr.vnrId vnr.edges
        (yuSub1 st vnr, (yuP2E st vnr).2.1) n
    rw [hdef]
    constructor
    · intro k
      show bwAvailVal (yuFlagRequeue { st with sub := (yuRb st vnr).1, nodeMap := vnr.nodes.foldl (fun m v => eraseKey m (vnr.vnrId, v)) st.nodeMap, linkMap := (yuRb st vnr).2 } vnr failed).1.sub k = bwAvailVal st.sub k
      rw [sub_yuFlagRequeue]
      show bwAvailVal (yuRb st vnr).1 k = bwAvailVal st.sub k
      rw [hrbbw k, hsub1bw k]
      ring
    · intro n
      show cpuAvailVal (yuFlagRequeue { st with sub := (yuRb st vnr).1, nodeMap := vnr.nodes.foldl (fun m v => eraseKey m (vnr.vnrId, v)) st.nodeMap, linkMap := (yuRb st vnr).2 } vnr failed).1.sub n = cpuAvailVal st.sub n + cpuDelta vnr n (vnr.nodes.map fun v => (v, (st.nodeMap.lookup (vnr.vnrId, v)).getD 0))
      rw [sub_yuFlagRequeue]
      show cpuAvailVal (yuRb st vnr).1 n = _
      rw [hrbcpu n, hsub1cpu n, hcpuE n]

/-- Greedy returns the uniform failure triple whenever it fails. -/
theorem greedy_fail_shape (sub vnr : Graph)
    (h : (simple_greedy_algorithm sub vnr).2.2 = false) :
    simple_greedy_algorithm sub vnr = (none, none, false) := by
  cases h1 : greedyNodesLoop sub vnr (pySortDesc (cpuAvailVal sub) sub.nodes)
      vnr.nodes [] with
  | none =>
    have hv : simple_greedy_algorithm sub vnr = (none, none, false) := by
      simp only [simple_greedy_algorithm, h1]
    exact hv
  | some nm =>
    cases h2 : greedyLinksLoop sub vnr nm vnr.edges [] with
    | none =>
      have hv : simple_greedy_algorithm sub vnr = (none, none, false) := by
        simp only [simple_greedy_algorithm, h1, h2]
      exact hv
    | some lm =>
      have hv : simple_greedy_algorithm sub vnr = (some nm, some lm, true) := by
        simp only [simple_greedy_algorithm, h1, h2]
      rw [hv] at h
      simp at h

/-- RankedBFS returns the uniform failure triple whenever it fails. -/
theorem rw_bfs_fail_shape (sub vnr : Graph) (max_hop max_backtrack : ℕ)
    (h : (rw_bfs_algorithm sub vnr max_hop max_backtrack).2.2 = false) :
    rw_bfs_algorithm sub vnr max_hop max_backtrack = (none, none, false) := by
  cases hs : compute_noderankD sub with
  | none =>
    have hv : rw_bfs_algorithm sub vnr max_hop max_backtrack =
        (none, none, false) := by
      simp only [rw_bfs_algorithm, hs]
    exact hv
  | some sr =>
    cases hv2 : compute_noderankD vnr with
    | none =>
      have hv : rw_bfs_algorithm sub vnr max_hop max_backtrack =
          (none, none, false) := by
        simp only [rw_bfs_algorithm, hs, hv2]
      exact hv
    | some vr =>
      cases he : bfs_embedding_with_backtracking sub vnr
          (construct_bfs_tree_order vnr vr).1 (construct_bfs_tree_order vnr vr).2
          (build_candidate_lists sub vnr sr) max_hop max_backtrack with
      | none =>
        have hv : rw_bfs_algorithm sub vnr max_hop max_backtrack =
            (none, none, false) := by
          simp only [rw_bfs_algorithm, hs, hv2, he]
        exact hv
      | some r =>
        have hv : rw_bfs_algorithm sub vnr max_hop max_backtrack =
            (some r.1, some r.2, true) := by
          simp only [rw_bfs_algorithm, hs, hv2, he]
        rw [hv] at h
        simp at h

/-- RankedMaxMatch never returns a link mapping on failure (but may return
a node mapping: see the counterexample). -/
theorem rw_maxmatch_fail_shape (sub vnr : Graph)
    (h : (rw_maxmatch_algorithm sub vnr).2.2 = false) :
    (rw_maxmatch_algorithm sub vnr).2.1 = none := by
  cases hs : compute_noderankD sub with
  | none =>
    have hv : rw_maxmatch_algorithm sub vnr = (none, none, false) := by
      simp only [rw_maxmatch_algorithm, hs]
    rw [hv]
  | some sr =>
    cases hv2 : compute_noderankD vnr with
    | none =>
      have hv : rw_maxmatch_algorithm sub vnr = (none, none, false) := by
        simp only [rw_maxmatch_algorithm, hs, hv2]
      rw [hv]
    | some vr =>
      cases hn : rw_maxmatch_node_mapping sub vnr sr vr with
      | none =>
        have hv : rw_maxmatch_algorithm sub vnr = (none, none, false) := by
          simp only [rw_maxmatch_algorithm, hs, hv2, hn]
        rw [hv]
      | some nm =>
        cases hl : rw_maxmatch_link_mapping sub vnr nm vnr.edges [] with
        | none =>
          have hv : rw_maxmatch_algorithm sub vnr = (some nm, none, false) := by
            simp only [rw_maxmatch_algorithm, hs, hv2, hn, hl]
          rw [hv]
        | some lm =>
          have hv : rw_maxmatch_algorithm sub vnr = (some nm, some lm, true) := by
            simp only [rw_maxmatch_algorithm, hs, hv2, hn, hl]
          rw [hv] at h
          simp at h

/-- `event['type'] == 'arrival'`. -/
def isArrival (e : EventE) : Bool :=
  match e.kind with
  | EvKind.arrival _ => true
  | EvKind.departure _ => false

/-- The event-order discipline of C5: an earlier departure never shares its
timestamp with a later arrival (equivalently: every arrival precedes every
equal-time departure). -/
def evP (a b : EventE) : Prop :=
  a.time = b.time → isArrival a = false → isArrival b = true → False

theorem insStable_sorted {α β : Type} [LinearOrder β] (key : α → β) (x : α) :
    ∀ l : List α, l.Pairwise (fun a b => key a ≤ key b) →
      (insStable (fun b a => decide (key b ≤ key a)) x l).Pairwise
        (fun a b => key a ≤ key b) := by
  intro l
  induction l with
  | nil => intro _; simp [insStable]
  | cons b rest ih =>
    intro h
    simp only [insStable]
    by_cases hb : key b ≤ key x
    · rw [if_pos (by simp [hb])]
      rw [List.pairwise_cons]
      constructor
      · intro y hy
        have hmem : y = x ∨ y ∈ rest := by
          have := (insStable_perm (fun b a => decide (key b ≤ key a)) x rest).mem_iff.mp hy
          simpa using this
        rcases hmem with rfl | hmem
        · exact hb
        · exact (List.pairwise_cons.mp h).1 y hmem
      · exact ih (List.pairwise_cons.mp h).2
    · rw [if_neg (by simp [hb])]
      rw [List.pairwise_cons]
      constructor
      · intro y hy
        have hxb : key x ≤ key b := le_of_not_le hb
        rcases List.mem_cons.mp hy with rfl | hmem
        · exact hxb
        · exact hxb.trans ((List.pairwise_cons.mp h).1 y hmem)
      · exact h

/-- Stability of the insertion: provided the inserted element respects `P`
against the equal-keyed elements already present, insertion preserves
pairwise `P` (different keys are ordered by the sort, where `P` holds). -/
theorem insStable_pairwise {α β : Type} [LinearOrder β] (key : α → β)
    (P : α → α → Prop) (hdiff : ∀ a b, key a < key b → P a b) (x : α) :
    ∀ l : List α, l.Pairwise (fun a b => key a ≤ key b) → l.Pairwise P →
      (∀ b ∈ l, key b = key x → P b x) →
      (insStable (fun b a => decide (key b ≤ key a)) x l).Pairwise P := by
  intro l
  induction l with
  | nil => intro _ _ _; simp [insStable]
  | cons b rest ih =>
    intro hS hP hcond
    simp only [insStable]
    by_cases hb : key b ≤ key x
    · rw [if_pos (by simp [hb])]
      rw [List.pairwise_cons]
      constructor
      · intro y hy
        have hmem : y = x ∨ y ∈ rest := by
          have := (insStable_perm (fun b a => decide (key b ≤ key a)) x rest).mem_iff.mp hy
          simpa using this
        rcases hmem with rfl | hmem
        · by_cases heq : key b = key y
          · exact hcond b (List.mem_cons_self b rest) heq
          · exact hdiff b y (lt_of_le_of_ne hb heq)
        · exact (List.pairwise_cons.mp hP).1 y hmem
      · exact ih (List.pairwise_cons.mp hS).2 (List.pairwise_cons.mp hP).2
          (fun c hc hkc => hcond c (List.mem_cons_of_mem b hc) hkc)
    · rw [if_neg (by simp [hb])]
      have hxb : key x < key b := lt_of_not_le hb
      rw [List.pairwise_cons]
      constructor
      · intro y hy
        rcases List.mem_cons.mp hy with rfl | hmem
        · exact hdiff x y hxb
        · exact hdiff x y (hxb.trans_le ((List.pairwise_cons.mp hS).1 y hmem))
      · exact hP

theorem pyStableSort_pairwise_aux {α β : Type} [LinearOrder β] (key : α → β)
    (P : α → α → Prop) (hdiff : ∀ a b, key a < key b → P a b) :
    ∀ (l acc : List α),
      acc.Pairwise (fun a b => key a ≤ key b) → acc.Pairwise P →
      (∀ x ∈ l, ∀ b ∈ acc, key b = key x → P b x) →
      l.Pairwise (fun a b => key a = key b → P a b) →
      (l.foldl (fun acc a => insStable (fun b a => decide (key b ≤ key a)) a acc)
        acc).Pairwise P := by
  intro l
  induction l with
  | nil => intro acc _ hP _ _; exact hP
  | cons x rest ih =>
    intro acc hS hP hcross hl
    rw [List.foldl_cons]
    refine ih _ (insStable_sorted key x acc hS)
      (insStable_pairwise key P hdiff x acc hS hP
        (fun b hb hk => hcross x (List.mem_cons_self x rest) b hb hk))
      ?_ (List.pairwise_cons.mp hl).2
    intro y hy b hb hk
    have hmem : b = x ∨ b ∈ acc := by
      have := (insStable_perm (fun b a => decide (key b ≤ key a)) x acc).mem_iff.mp hb
      simpa using this
    rcases hmem with rfl | hmem
    · exact (List.pairwise_cons.mp hl).1 y hy hk
    · exact hcross y (List.mem_cons_of_mem x hy) b hmem hk

/-- Python's stable ascending sort keeps every pairwise property of the
input that holds between equal-keyed elements (their relative order is
preserved) and that holds automatically between strictly ordered keys. -/
theorem pySortAsc_pairwise {α β : Type} [LinearOrder β] (key : α → β)
    (P : α → α → Prop) (hdiff : ∀ a b, key a < key b → P a b)
    (l : List α) (hl : l.Pairwise (fun a b => key a = key b → P a b)) :
    (pySortAsc key l).Pairwise P := by
  have h := pyStableSort_pairwise_aux key P hdiff l [] List.Pairwise.nil
    List.Pairwise.nil (fun x _ b hb => by cases hb) hl
  exact h

theorem evP_of_time_lt : ∀ a b : EventE, a.time < b.time → evP a b :=
  fun _ _ hab heq _ _ => (ne_of_lt hab) heq

/-- The initial event list (the sorted arrivals) satisfies the discipline:
it contains no departure at all. -/
theorem simInit_evOK (sub : Graph) (queue : List Graph) :
    (simInit sub queue).events.Pairwise evP := by
  have hin : (queue.map fun v =>
      (⟨v.arrival_time, EvKind.arrival v⟩ : EventE)).Pairwise
      (fun a b => a.time = b.time → evP a b) := by
    induction queue with
    | nil => exact List.Pairwise.nil
    | cons v rest ih =>
      rw [List.map_cons, List.pairwise_cons]
      refine ⟨?_, ih⟩
      intro y hy heq heq2 hfa hb
      simp [isArrival] at hfa
  exact pySortAsc_pairwise (fun e : EventE => e.time) evP evP_of_time_lt _ hin

/-- The event list of a simulation step is either unchanged or the stable
re-sort of the old list with one departure appended. -/
theorem simStep_events (alg : Alg) (s : SimState) :
    (simStep alg s).events = s.events ∨
    ∃ d : EventE, isArrival d = false ∧
      (simStep alg s).events =
        pySortAsc (fun e => e.time) (s.events ++ [d]) := by
  cases hev : s.events.get? s.idx with
  | none =>
    left
    have h : simStep alg s = s := by
      simp only [simStep, hev]
    rw [h]
  | some ev =>
    cases hk : ev.kind with
    | arrival vnr =>
      by_cases hr : (alg s.sub vnr).2.2 = true
      · right
        refine ⟨⟨ev.time + vnr.lifetime, EvKind.departure vnr.vnrId⟩, rfl, ?_⟩
        have h : (simStep alg s).events = pySortAsc (fun e => e.time)
            (s.events ++ [⟨ev.time + vnr.lifetime, EvKind.departure vnr.vnrId⟩]) := by
          simp only [simStep, hev, hk]
          rw [if_pos hr]
        exact h
      · left
        have h : (simStep alg s).events = s.events := by
          simp only [simStep, hev, hk]
          rw [if_neg hr]
        exact h
    | departure id =>
      left
      cases hl : s.active.lookup id with
      | some info =>
        have h : (simStep alg s).events = s.events := by
          simp only [simStep, hev, hk, hl]
        exact h
      | none =>
        have h : (simStep alg s).events = s.events := by
          simp only [simStep, hev, hk, hl]
        exact h

theorem simStep_evOK (alg : Alg) (s : SimState)
    (h : s.events.Pairwise evP) : (simStep alg s).events.Pairwise evP := by
  rcases simStep_events alg s with heq | ⟨d, hd, heq⟩
  · rw [heq]; exact h
  · rw [heq]
    refine pySortAsc_pairwise (fun e : EventE => e.time) evP evP_of_time_lt _ ?_
    rw [List.pairwise_append]
    refine ⟨h.imp (fun hab => fun _ => hab), by simp, ?_⟩
    intro a ha b hb hk heq2 hfa hbt
    have hbd : b = d := by simpa using hb
    rw [hbd, hd] at hbt
    cases hbt

theorem simRun_evOK (alg : Alg) : ∀ (n : ℕ) (s : SimState),
    s.events.Pairwise evP → (simRun alg n s).events.Pairwise evP := by
  intro n
  induction n with
  | zero => intro s h; exact h
  | succ m ih => intro s h; exact ih _ (simStep_evOK alg s h)

/-- C8: the ChunkedBaseline retry discipline.  Each occurrence of a
`vnr_id` in the (mutated) chunk list is attempted exactly once by the
node-mapping pass of its chunk; a failed, not-yet-retried VNR gets
`retried = true` and is appended to the next chunk's list (or a new
trailing chunk when the failure happened in the last chunk), and a VNR
failing with `retried = true` is never requeued again (`yuFlagRequeue`).
Hence if a `vnr_id` occurs at most once in the input chunks and its
`retried` flag starts unset, it occurs at most twice in the final chunk
list — it is attempted at most twice across the whole run — and when it
does occur twice its `retried` flag ends set. -/
theorem yu_vnr_attempted_at_most_twice (sub : Graph)
    (chunks : List (List Graph)) (flags0 : ℕ → Bool) (tw : ℤ) (id : ℕ)
    (h1 : countOcc id chunks ≤ 1) (h0 : flags0 id = false) :
    countOcc id (yu2008_algorithm sub chunks flags0 tw).1.chunks ≤ 2 ∧
    (countOcc id (yu2008_algorithm sub chunks flags0 tw).1.chunks = 2 →
      (yu2008_algorithm sub chunks flags0 tw).1.flags id = true) := by
  have hfst : (yu2008_algorithm sub chunks flags0 tw).1 =
      yuLoop tw (chunks.length + 2) 0
        ⟨sub, chunks, flags0, [], [], [], [], [], [], []⟩ := rfl
  rw [hfst]
  have hR0 : countOcc id chunks ≤ 1 + (if flags0 id then 1 else 0) := by
    have e : (if flags0 id then 1 else 0 : ℕ) = 0 := by simp [h0]
    rw [e]
    omega
  have hfin := yuLoop_R tw id (chunks.length + 2) 0
    ⟨sub, chunks, flags0, [], [], [], [], [], [], []⟩ hR0
  constructor
  · by_cases hf : (yuLoop tw (chunks.length + 2) 0
        ⟨sub, chunks, flags0, [], [], [], [], [], [], []⟩).flags id = true
    · have e : (if (yuLoop tw (chunks.length + 2) 0
          ⟨sub, chunks, flags0, [], [], [], [], [], [], []⟩).flags id
          then 1 else 0 : ℕ) = 1 := by simp [hf]
      rw [e] at hfin
      omega
    · have hff := Bool.eq_false_iff.mpr hf
      have e : (if (yuLoop tw (chunks.length + 2) 0
          ⟨sub, chunks, flags0, [], [], [], [], [], [], []⟩).flags id
          then 1 else 0 : ℕ) = 0 := by simp [hff]
      rw [e] at hfin
      omega
  · intro h2
    by_cases hf : (yuLoop tw (chunks.length + 2) 0
        ⟨sub, chunks, flags0, [], [], [], [], [], [], []⟩).flags id = true
    · exact hf
    · have hff := Bool.eq_false_iff.mpr hf
      have e : (if (yuLoop tw (chunks.length + 2) 0
          ⟨sub, chunks, flags0, [], [], [], [], [], [], []⟩).flags id
          then 1 else 0 : ℕ) = 0 := by simp [hff]
      rw [e] at hfin
      exact absurd h2 (by omega)

/-- Witness for C8: the infeasible `vnrC8` (3 virtual nodes on a 2-node
substrate) fails in its only chunk, is retried once in the appended
trailing chunk, fails again and is not requeued: it occurs exactly twice
in the final chunk list and its flag ends set. -/
theorem yu_vnr_attempted_at_most_twice_witness :
    countOcc 7 (yu2008_algorithm subC8 [[vnrC8]] (fun _ => false) 25).1.chunks ≤ 2 ∧
    (countOcc 7 (yu2008_algorithm subC8 [[vnrC8]] (fun _ => false) 25).1.chunks = 2 →
      (yu2008_algorithm subC8 [[vnrC8]] (fun _ => false) 25).1.flags 7 = true) :=
  yu_vnr_attempted_at_most_twice subC8 [[vnrC8]] (fun _ => false) 25 7
    (by decide) rfl

/-- C2 (amended): failure shapes and rollback.  On a failed embedding
attempt: Greedy and RankedBFS return `(none, none, false)`; RankedMaxMatch
returns no link mapping (though a link-phase failure passes the computed
node mapping through — see the counterexample); the three per-request
strategies never mutate the substrate (they are read-only functions of it,
as their embedding types show).  ChunkedBaseline undoes its own partial
allocations: a failed node-mapping pass (`yuPhase1Vnr`) leaves every
`cpu_available` and `bandwidth_available` of the substrate exactly as
before the attempt, and a failed link-mapping pass (`yuPhase2Vnr`, for a
VNR with distinct edges none of which is already in the link-map record)
restores every `bandwidth_available` exactly and credits back exactly the
VNR's recorded CPU allocations. -/
theorem embedding_failure_shapes_and_rollback :
    (∀ sub vnr : Graph, (simple_greedy_algorithm sub vnr).2.2 = false →
      simple_greedy_algorithm sub vnr = (none, none, false)) ∧
    (∀ (sub vnr : Graph) (max_hop max_backtrack : ℕ),
      (rw_bfs_algorithm sub vnr max_hop max_backtrack).2.2 = false →
      rw_bfs_algorithm sub vnr max_hop max_backtrack = (none, none, false)) ∧
    (∀ sub vnr : Graph, (rw_maxmatch_algorithm sub vnr).2.2 = false →
      (rw_maxmatch_algorithm sub vnr).2.1 = none) ∧
    (∀ (st : YuState) (vnr : Graph) (failed : List Graph),
      (yuPhase1Vnr st vnr failed).2.2 = false →
      (∀ n, cpuAvailVal (yuPhase1Vnr st vnr failed).1.sub n =
        cpuAvailVal st.sub n) ∧
      (∀ e, bwAvailVal (yuPhase1Vnr st vnr failed).1.sub e =
        bwAvailVal st.sub e)) ∧
    (∀ (current : ℤ) (st : YuState) (vnr : Graph) (failed : List Graph),
      vnr.edges.Nodup →
      (∀ e ∈ vnr.edges, st.linkMap.lookup (vnr.vnrId, e) = none) →
      (yuPhase2Vnr current st vnr failed).2.2 = false →
      (∀ k, bwAvailVal (yuPhase2Vnr current st vnr failed).1.sub k =
        bwAvailVal st.sub k) ∧
      (∀ n, cpuAvailVal (yuPhase2Vnr current st vnr failed).1.sub n =
        cpuAvailVal st.sub n + cpuDelta vnr n
          (vnr.nodes.map fun v => (v, (st.nodeMap.lookup (vnr.vnrId, v)).getD 0)))) :=
  ⟨greedy_fail_shape, rw_bfs_fail_shape, rw_maxmatch_fail_shape,
   yuPhase1Vnr_fail_sub, yuPhase2Vnr_fail_sub⟩

/-- Witness for C2: Greedy fails on the 3-virtual-node VNR over the 2-node
substrate and returns `(none, none, false)`; the ChunkedBaseline
node-mapping pass fails on the same pair and leaves `cpu_available` of
substrate node 1 untouched. -/
theorem embedding_failure_shapes_and_rollback_witness :
    simple_greedy_algorithm subC8 vnrC8 = (none, none, false) ∧
    cpuAvailVal (yuPhase1Vnr ⟨subC8, [], (fun _ => false), [], [], [], [], [], [], []⟩ vnrC8 []).1.sub 1 = cpuAvailVal subC8 1 :=
  ⟨embedding_failure_shapes_and_rollback.1 subC8 vnrC8 (by decide),
   (embedding_failure_shapes_and_rollback.2.2.2.1
     ⟨subC8, [], (fun _ => false), [], [], [], [], [], [], []⟩ vnrC8 []
     (by decide)).1 1⟩

/-- C5 (amended): in EVERY reachable state of the simulator — any
substrate, any VNR queue, any strategy, any number of steps — the pending
event list never places a departure before an equal-timestamped arrival:
`vne_simulation` queues all arrivals up front, appends each departure
event after them and re-sorts with Python's stable `list.sort`, which
keeps an equal-time arrival before the later-appended departure.  Events
are processed in list order, so whenever a departure and an arrival carry
equal timestamps the ARRIVAL is processed first (its index is strictly
smaller), and the arriving VNR is embedded against capacities that do NOT
yet include resources freed by same-time departures. -/
theorem arrival_processed_before_equal_time_departure (sub : Graph)
    (queue : List Graph) (alg : Alg) (n i j : ℕ) (ei ej : EventE)
    (hi : (simRun alg n (simInit sub queue)).events.get? i = some ei)
    (hj : (simRun alg n (simInit sub queue)).events.get? j = some ej)
    (ht : ei.time = ej.time) (hdep : isArrival ei = false)
    (harr : isArrival ej = true) : j < i := by
  have hpw := simRun_evOK alg n (simInit sub queue) (simInit_evOK sub queue)
  have hne : i ≠ j := by
    intro hc
    rw [hc, hj] at hi
    injection hi with h2
    rw [h2] at harr
    rw [hdep] at harr
    cases harr
  by_contra hji
  have hij : i < j := lt_of_le_of_ne (not_lt.mp hji) hne
  rcases List.get?_eq_some.mp hi with ⟨hiL, hgi⟩
  rcases List.get?_eq_some.mp hj with ⟨hjL, hgj⟩
  have hrel := List.pairwise_iff_get.mp hpw ⟨i, hiL⟩ ⟨j, hjL⟩ hij
  rw [hgi, hgj] at hrel
  exact hrel ht hdep harr

/-- Witness for C5: in the two-VNR run on `subC5` the reached event list is
arrival(0), arrival(10), departure(10) — the time-10 departure (index 2)
sits strictly after the equal-time arrival (index 1). -/
theorem arrival_processed_before_equal_time_departure_witness :
    (simRun simple_greedy_algorithm 4 (simInit subC5 [vnrA5, vnrB5])).events.get? 2 =
      some ⟨10, EvKind.departure 1⟩ ∧
    (simRun simple_greedy_algorithm 4 (simInit subC5 [vnrA5, vnrB5])).events.get? 1 =
      some ⟨10, EvKind.arrival vnrB5⟩ ∧
    (1 : ℕ) < 2 :=
  ⟨rfl, rfl,
   arrival_processed_before_equal_time_departure subC5 [vnrA5, vnrB5]
     simple_greedy_algorithm 4 2 1 ⟨10, EvKind.departure 1⟩
     ⟨10, EvKind.arrival vnrB5⟩ rfl rfl rfl rfl rfl⟩

end VNE